import Mathlib

/-!
# MySQL process manager: the view-state logic of `App.js`

A shallow embedding of the state-management code of
`src/frontend/mysql-process-manager/src/App.js` (the `App` component):
`fetchProcesses`, `killSelected`, `handleSort`, the derived values
`sortedProcesses`, `filteredProcesses`, `userCounts` / `userData`,
`commandCounts` / `commandData`, `blockingQuery`, the two selection
handlers of the table, and the effect that schedules the polls.

Modelling conventions.

* A JavaScript string is the list of its UTF-16 code units (`JSString`).
* A JavaScript number is an IEEE-754 double (`JSNumber`): `NaN`, an infinity, or a finite
  value counted in units of `2^-1074`; `+` rounds to nearest, ties to even.
* `String.prototype.toLowerCase` and the conversion of a string to a number are taken as
  parameters (`Intrinsics`): every theorem holds for whatever functions the engine provides.
* `Array.prototype.sort` follows V8 (Chrome, Node) on arrays shorter than 64 elements: run
  detection and binary insertion. For a consistent comparator the result is the stable sort
  that the language prescribes to every engine at every length.
* A property of a process record is absent (`undefined`), `null`, or present (`Field`);
  `Time`, which the data model lets be a number or a string, is any value (`JSVal`).
* React state is one record (`AppState`); every handler is a function from the
  state (and the outcome of the requests it awaits) to the next state.
-/

namespace ProcessManager

/-! ## JavaScript values -/

/-- A JavaScript string, as the list of its UTF-16 code units. -/
abbrev JSString := List Nat

/-- The UTF-16 code units of one character. -/
def utf16 (c : Char) : List Nat :=
  if c.toNat < 65536 then [c.toNat]
  else [55296 + (c.toNat - 65536) / 1024, 56320 + (c.toNat - 65536) % 1024]

/-- The JavaScript string written as the literal `s`. -/
def js (s : String) : JSString := s.toList.flatMap utf16

/-- Whether `f` is an initial segment of `s`. -/
def startsWith : JSString → JSString → Bool
  | _, [] => true
  | [], _ :: _ => false
  | c :: s, d :: f => c == d && startsWith s f

/-- `s.includes(f)`: `f` occurs in `s` as a contiguous run of code units. -/
def includes : JSString → JSString → Bool
  | [], f => startsWith [] f
  | c :: s, f => startsWith (c :: s) f || includes s f

/-- The comparison `s < t` of two strings: lexicographic on code units, a proper initial
segment being smaller. -/
def strLt : JSString → JSString → Bool
  | _, [] => false
  | [], _ :: _ => true
  | c :: s, d :: t => if c < d then true else if d < c then false else strLt s t

/-- A JavaScript number: `NaN`, `+Infinity` or `-Infinity`, or the finite value
`k * 2^-1074`. Every finite double is such a multiple (`2^-1074` is the smallest positive
double), with `|k| < 2^2098`; negative zero is not told apart from zero, which `+` from an
accumulator 0 and `<` never do. -/
inductive JSNumber where
  | nan
  | inf (negative : Bool)
  | fin (k : Int)
deriving DecidableEq, Repr

/-- The double that is the integer `n` (exact for `|n| ≤ 2^53`). -/
def JSNumber.ofInt (n : Int) : JSNumber := .fin (n * ((2 ^ 1074 : Nat) : Int))

/-- The number of binary digits of `n`, counted by halving at most `fuel` times, on top of
`acc`. -/
def bitLengthFrom : Nat → Nat → Nat → Nat
  | 0, _, acc => acc
  | fuel + 1, n, acc => if n = 0 then acc else bitLengthFrom fuel (n / 2) (acc + 1)

/-- The number of binary digits of `n`, up to 2200 (a finite double has fewer than 2100 in
units of `2^-1074`). -/
def bitLength (n : Nat) : Nat := bitLengthFrom 2200 n 0

/-- Rounding of `m` units to 53 significant bits, to nearest, ties to even. -/
def roundMantissa (m : Nat) : Nat :=
  let sh := bitLength m - 53
  let q := m / 2 ^ sh
  let r := m % 2 ^ sh
  if 2 ^ sh < 2 * r ∨ (2 * r = 2 ^ sh ∧ q % 2 = 1) then (q + 1) * 2 ^ sh else q * 2 ^ sh

/-- The double nearest to `k` units; a magnitude that rounds to `2^1024` or more overflows to
an infinity. -/
def JSNumber.round (k : Int) : JSNumber :=
  if 2 ^ 2098 ≤ roundMantissa k.natAbs then .inf (decide (k < 0))
  else .fin (if k < 0 then -(roundMantissa k.natAbs : Int) else (roundMantissa k.natAbs : Int))

/-- The sum `x + y` of two numbers. -/
def JSNumber.add : JSNumber → JSNumber → JSNumber
  | .nan, _ => .nan
  | _, .nan => .nan
  | .inf a, .inf b => if a = b then .inf a else .nan
  | .inf a, .fin _ => .inf a
  | .fin _, .inf b => .inf b
  | .fin a, .fin b => JSNumber.round (a + b)

/-- The comparison `x < y` of two numbers (false when either is `NaN`). -/
def JSNumber.lt : JSNumber → JSNumber → Bool
  | .nan, _ => false
  | _, .nan => false
  | .inf a, .inf b => a && !b
  | .inf a, .fin _ => a
  | .fin _, .inf b => !b
  | .fin a, .fin b => decide (a < b)

/-- What the embedding takes from the engine as given: `String.prototype.toLowerCase` and
the conversion `StringToNumber`, of which it uses only that the empty string is lower-cased to
itself and converts to 0. -/
structure Intrinsics where
  toLowerCase : JSString → JSString
  stringToNumber : JSString → JSNumber
  toLowerCase_empty : toLowerCase [] = []
  stringToNumber_empty : stringToNumber [] = .fin 0

/-- A property of a record: absent, `null`, or present with a value of type `α`. -/
inductive Field (α : Type) where
  | undefined
  | null
  | val (v : α)
deriving DecidableEq, Repr

/-- A value read from a record by a computed key (`a[key]`). -/
inductive JSVal where
  | undefined
  | null
  | num (x : JSNumber)
  | str (s : JSString)
deriving DecidableEq, Repr

/-- A numeric property as a value. -/
def Field.toNum : Field Int → JSVal
  | .undefined => .undefined
  | .null => .null
  | .val n => .num (JSNumber.ofInt n)

/-- A textual property as a value. -/
def Field.toStr : Field JSString → JSVal
  | .undefined => .undefined
  | .null => .null
  | .val s => .str s

/-! ## Data model -/

/-- One entry of the process list served by `GET /processes`. -/
structure Process where
  Id : Field Int
  User : Field JSString
  Host : Field JSString
  Db : Field JSString
  Command : Field JSString
  Time : JSVal
  State : Field JSString
  Info : Field JSString
  CPU : Field JSNumber
  Memory : Field JSNumber
deriving DecidableEq, Repr

/-- The column names of the process table (the keys `handleSort` is called with). -/
inductive Column where
  | Id | User | Host | Db | Command | Time | State | Info
deriving DecidableEq, Repr

/-- The property read `p[key]`. -/
def Process.get (p : Process) : Column → JSVal
  | .Id => p.Id.toNum
  | .User => p.User.toStr
  | .Host => p.Host.toStr
  | .Db => p.Db.toStr
  | .Command => p.Command.toStr
  | .Time => p.Time
  | .State => p.State.toStr
  | .Info => p.Info.toStr

/-- The sort direction held in `sortConfig.direction`. -/
inductive Direction where
  | asc | desc
deriving DecidableEq, Repr

/-- The state `sortConfig`. -/
structure SortConfig where
  key : Column
  direction : Direction
deriving DecidableEq, Repr

/-- One data point of `resourceHistory`. -/
structure Sample where
  name : JSString
  cpu : JSNumber
  memory : JSNumber
deriving DecidableEq, Repr

/-- The body of a poll response (`res.data`): an array of process records, or a JSON value
that is not an array. -/
inductive Payload where
  | rows (ps : List Process)
  | notArray
deriving DecidableEq, Repr

/-- The outcome of `axios.get("/processes")`: the promise resolves with a body or rejects. -/
inductive Response where
  | resolved (data : Payload)
  | rejected
deriving DecidableEq, Repr

/-- The React state of `App` that the handlers below read and write. -/
structure AppState where
  processes : Payload
  loading : Bool
  autoRefresh : Bool
  search : JSString
  sortConfig : SortConfig
  selectedProcesses : List (Field Int)
  resourceHistory : List Sample
deriving DecidableEq, Repr

/-- The initial state set up by the `useState` calls. -/
def AppState.init : AppState :=
  { processes := .rows []
    loading := true
    autoRefresh := true
    search := []
    sortConfig := { key := .Id, direction := .asc }
    selectedProcesses := []
    resourceHistory := [] }

/-! ## `fetchProcesses` -/

/-- The addition `sum + x` of the two `reduce` callbacks, for a numeric accumulator:
`null` converts to 0, `undefined` to `NaN`. -/
def addField (sum : JSNumber) : Field JSNumber → JSNumber
  | .undefined => .nan
  | .null => sum.add (.fin 0)
  | .val x => sum.add x

/-- The total `res.data.reduce((sum, p) => sum + p.CPU, 0)`. -/
def totalCPU (data : List Process) : JSNumber :=
  data.foldl (fun sum p => addField sum p.CPU) (.fin 0)

/-- The total `res.data.reduce((sum, p) => sum + p.Memory, 0)`. -/
def totalMemory (data : List Process) : JSNumber :=
  data.foldl (fun sum p => addField sum p.Memory) (.fin 0)

/-- The array method `xs.slice(-n)`: the last `n` elements. -/
def sliceLast (n : Nat) (xs : List α) : List α := xs.drop (xs.length - n)

/-- The updater passed to `setResourceHistory`. -/
def pushSample (prevHistory : List Sample) (s : Sample) : List Sample :=
  sliceLast 10 (prevHistory ++ [s])

/-- The sample built from a response body at clock reading `now`. -/
def sampleOf (now : JSString) (data : List Process) : Sample :=
  { name := now, cpu := totalCPU data, memory := totalMemory data }

/-- The part of `fetchProcesses` before the request: `setLoading(true)`. -/
def fetchStart (st : AppState) : AppState := { st with loading := true }

/-- The part of `fetchProcesses` after the `await`: on a resolved request the body is
stored with `setProcesses`, then the totals are taken with `reduce` (a `TypeError` for a body
that is not an array, caught by the `catch`), then the sample is pushed; `finally` clears
`loading`. -/
def fetchResolve (st : AppState) (now : JSString) : Response → AppState
  | .rejected => { st with loading := false }
  | .resolved .notArray => { st with processes := .notArray, loading := false }
  | .resolved (.rows data) =>
      { st with
        processes := .rows data
        resourceHistory := pushSample st.resourceHistory (sampleOf now data)
        loading := false }

/-- One whole call of `fetchProcesses`, with the clock reading and the outcome of its request. -/
def fetchProcesses (st : AppState) (now : JSString) (res : Response) : AppState :=
  fetchResolve (fetchStart st) now res

/-- A successful poll: the request resolves with the array `data` at clock reading `now`. -/
def poll (st : AppState) (p : JSString × List Process) : AppState :=
  fetchProcesses st p.1 (.resolved (.rows p.2))

/-- A run of successful polls. -/
def pollAll (st : AppState) (ps : List (JSString × List Process)) : AppState :=
  ps.foldl poll st

/-! ## `handleSort`, `sortedProcesses`, `filteredProcesses` -/

/-- The handler `handleSort(key)`. -/
def handleSort (st : AppState) (key : Column) : AppState :=
  let direction :=
    if st.sortConfig.key = key ∧ st.sortConfig.direction = .asc then Direction.desc
    else Direction.asc
  { st with sortConfig := { key := key, direction := direction } }

/-- The default `v ?? ""`. -/
def orEmpty : JSVal → JSVal
  | .undefined => .str []
  | .null => .str []
  | v => v

/-- The step `if (typeof v === "string") v = v.toLowerCase()`. -/
def lowerIfString (J : Intrinsics) : JSVal → JSVal
  | .str s => .str (J.toLowerCase s)
  | v => v

/-- The conversion `ToNumber`. -/
def toNumber (J : Intrinsics) : JSVal → JSNumber
  | .undefined => .nan
  | .null => .fin 0
  | .num x => x
  | .str s => J.stringToNumber s

/-- The relational comparison `a < b`: two strings are compared as strings, any other pair
as numbers. -/
def jsLt (J : Intrinsics) (a b : JSVal) : Bool :=
  match a, b with
  | .str s, .str t => strLt s t
  | _, _ => (toNumber J a).lt (toNumber J b)

/-- The relational comparison `a > b`. -/
def jsGt (J : Intrinsics) (a b : JSVal) : Bool := jsLt J b a

/-- The value the comparator reads from a record: `a[key] ?? ""`, lower-cased when a string. -/
def sortKey (J : Intrinsics) (key : Column) (a : Process) : JSVal :=
  lowerIfString J (orEmpty (a.get key))

/-- The comparator passed to `sort` in `sortedProcesses`. -/
def compareFn (J : Intrinsics) (cfg : SortConfig) (a b : Process) : Int :=
  let aVal := sortKey J cfg.key a
  let bVal := sortKey J cfg.key b
  if jsLt J aVal bVal then (if cfg.direction = .asc then -1 else 1)
  else if jsGt J aVal bVal then (if cfg.direction = .asc then 1 else -1)
  else 0

/-- The length of the run that continues after `prev`: in an ascending run each element
compares `≥ 0` with the one before it, in a descending run `< 0`. -/
def runLength (comparefn : α → α → Int) (descending : Bool) (prev : α) : List α → Nat
  | [] => 0
  | x :: rest =>
    if (if descending then comparefn x prev < 0 else 0 ≤ comparefn x prev) then
      runLength comparefn descending x rest + 1
    else 0

/-- The binary search of the insertion: the index in `[left, right)` of `work` where
`pivot` goes, after every element it does not compare `< 0` with. `fuel` bounds the number
of halvings. -/
def insertionPoint (comparefn : α → α → Int) (pivot : α) (work : List α) :
    Nat → Nat → Nat → Nat
  | 0, left, _ => left
  | fuel + 1, left, right =>
    if left < right then
      match work[left + (right - left) / 2]? with
      | some x =>
        if comparefn pivot x < 0 then
          insertionPoint comparefn pivot work fuel left (left + (right - left) / 2)
        else insertionPoint comparefn pivot work fuel (left + (right - left) / 2 + 1) right
      | none => left
    else left

/-- One step of the binary insertion sort: `pivot` is put into the sorted prefix `work`. -/
def binaryInsert (comparefn : α → α → Int) (work : List α) (pivot : α) : List α :=
  (work.take (insertionPoint comparefn pivot work work.length 0 work.length))
    ++ pivot :: work.drop (insertionPoint comparefn pivot work work.length 0 work.length)

/-- The method `Array.prototype.sort(comparefn)` on a copy of `xs`, as V8 runs it on an
array shorter than 64 elements: the initial run is found (and reversed when descending), then
the other elements are put in by binary insertion. For a consistent comparator this is the
stable sort the language prescribes, whatever the length and the engine; for an inconsistent
one the language leaves the order to the engine, and a longer array is merged from several
runs. -/
def arraySort (comparefn : α → α → Int) : List α → List α
  | [] => []
  | [a] => [a]
  | a :: b :: rest =>
    let descending := decide (comparefn b a < 0)
    let n := runLength comparefn descending b rest
    let run := a :: b :: rest.take n
    (rest.drop n).foldl (binaryInsert comparefn) (if descending then run.reverse else run)

/-- The derived value `sortedProcesses`. -/
def sortedProcesses (J : Intrinsics) (processes : List Process) (cfg : SortConfig) :
    List Process :=
  arraySort (compareFn J cfg) processes

/-- The text `(v || "").toString()` of a searched property. -/
def textOf : Field JSString → JSString
  | .val s => s
  | _ => []

/-- The searched properties `["User", "Db", "Command", "State", "Info"]` of a record. -/
def searchedFields (p : Process) : List (Field JSString) :=
  [p.User, p.Db, p.Command, p.State, p.Info]

/-- The filter callback of `filteredProcesses`. -/
def matchesSearch (J : Intrinsics) (search : JSString) (p : Process) : Bool :=
  (searchedFields p).any fun v =>
    includes (J.toLowerCase (textOf v)) (J.toLowerCase search)

/-- The derived value `filteredProcesses`. -/
def filteredProcesses (J : Intrinsics) (processes : List Process) (search : JSString)
    (cfg : SortConfig) : List Process :=
  (sortedProcesses J processes cfg).filter (matchesSearch J search)

/-! ## Selection handlers and `killSelected` -/

/-- The `onChange` handler of the select-all checkbox, rendered over the view
`filteredProcesses`. -/
def selectAllChange (filteredProcesses : List Process) (checked : Bool) (st : AppState) :
    AppState :=
  { st with
    selectedProcesses := if checked then filteredProcesses.map (fun p => p.Id) else [] }

/-- The `onChange` handler of the checkbox of row `p`. -/
def toggleRow (p : Process) (st : AppState) : AppState :=
  { st with
    selectedProcesses :=
      if p.Id ∈ st.selectedProcesses then st.selectedProcesses.filter (fun pid => pid ≠ p.Id)
      else st.selectedProcesses ++ [p.Id] }

/-- What a handler does besides setting state. -/
inductive Effect where
  | alertNoSelection
  | alertKillFailed
  | postKill (process_ids : List (Field Int))
  | callFetchProcesses
deriving DecidableEq, Repr

/-- The handler `killSelected`: `confirmed` is the answer to `window.confirm`, `killed`
whether the `POST /kill` request resolved (it is read only when the request is sent). The
call `fetchProcesses()` is not awaited: it runs up to its own request (`fetchStart`) and is
recorded as an effect. -/
def killSelected (st : AppState) (confirmed killed : Bool) : AppState × List Effect :=
  if st.selectedProcesses.length = 0 then (st, [.alertNoSelection])
  else if confirmed then
    if killed then
      (fetchStart { st with selectedProcesses := [] },
        [.postKill st.selectedProcesses, .callFetchProcesses])
    else (st, [.postKill st.selectedProcesses, .alertKillFailed])
  else (st, [])

/-! ## Dashboard data -/

/-- The property key made from `p.User` or `p.Command` in `acc[...]`. -/
def propertyKey : Field JSString → JSString
  | .undefined => js "undefined"
  | .null => js "null"
  | .val s => s

/-- A value read from the accumulator object of `reduce`: `undefined`, a count, or a value
that is not a number (a member inherited from `Object.prototype`, or the string that `+ 1`
makes from one). -/
inductive PropVal where
  | undefined
  | count (n : Nat)
  | other
deriving DecidableEq, Repr

/-- The own properties of an object, in creation order. -/
abbrev Obj := List (JSString × PropVal)

/-- The property names a fresh `{}` inherits from `Object.prototype`. -/
def inheritedNames : List JSString :=
  [js "constructor", js "hasOwnProperty", js "isPrototypeOf", js "propertyIsEnumerable",
   js "toLocaleString", js "toString", js "valueOf", js "__proto__", js "__defineGetter__",
   js "__defineSetter__", js "__lookupGetter__", js "__lookupSetter__"]

/-- The read `acc[k]`: the own property, else the inherited member, else `undefined`. -/
def Obj.read (acc : Obj) (k : JSString) : PropVal :=
  match acc.lookup k with
  | some v => v
  | none => if k ∈ inheritedNames then .other else .undefined

/-- The expression `(x || 0) + 1`. -/
def orZeroPlusOne : PropVal → PropVal
  | .undefined => .count 1
  | .count n => .count (n + 1)
  | .other => .other

/-- The assignment `acc[k] = v` of a value that is not an object: an own property is
overwritten in place, a new one is created last; `__proto__` is the inherited setter, which
ignores such a value. -/
def Obj.write (acc : Obj) (k : JSString) (v : PropVal) : Obj :=
  if k = js "__proto__" then acc
  else if (acc.lookup k).isSome then acc.map (fun kv => if kv.1 = k then (k, v) else kv)
  else acc ++ [(k, v)]

/-- The reduction `processes.reduce((acc, p) => { acc[k] = (acc[k] || 0) + 1; return acc; }, {})`
over the keys `k` of the records. -/
def countKeys (keys : List JSString) : Obj :=
  keys.foldl (fun acc k => acc.write k (orZeroPlusOne (acc.read k))) []

/-- The value of one decimal digit. -/
def digit? (u : Nat) : Option Nat := if 48 ≤ u ∧ u ≤ 57 then some (u - 48) else none

/-- The value of a string of decimal digits, read from the left with `acc` the value so far. -/
def decimalFrom (acc : Nat) : JSString → Option Nat
  | [] => some acc
  | u :: s => match digit? u with
    | some d => decimalFrom (10 * acc + d) s
    | none => none

/-- The array index a property key denotes: the key is the canonical decimal text of an
integer below 2^32 - 1. -/
def arrayIndex? (k : JSString) : Option Nat :=
  match k with
  | [] => none
  | [48] => some 0
  | 48 :: _ => none
  | _ => match decimalFrom 0 k with
    | some n => if n < 4294967295 then some n else none
    | none => none

/-- The index of a key known to be an array index. -/
def indexValue (k : JSString) : Nat := (arrayIndex? k).getD 0

/-- The order in which an ordinary object enumerates its own string keys, given in creation
order: the array-index keys in ascending numeric order, then the other keys in creation order. -/
def ownKeyOrder (ks : List JSString) : List JSString :=
  (ks.filter fun k => (arrayIndex? k).isSome).insertionSort
      (fun a b => indexValue a ≤ indexValue b)
    ++ ks.filter fun k => (arrayIndex? k).isNone

/-- The method `Object.keys(acc)`. -/
def objectKeys (acc : Obj) : List JSString := ownKeyOrder (acc.map Prod.fst)

/-- The chart data `Object.keys(counts).map((u) => ({ name: u, value: counts[u] }))`. -/
def chartData (counts : Obj) : List (JSString × PropVal) :=
  (objectKeys counts).map fun u => (u, counts.read u)

/-- The derived value `userCounts`. -/
def userCounts (processes : List Process) : Obj :=
  countKeys (processes.map fun p => propertyKey p.User)

/-- The derived value `userData`. -/
def userData (processes : List Process) : List (JSString × PropVal) :=
  chartData (userCounts processes)

/-- The derived value `commandCounts`. -/
def commandCounts (processes : List Process) : Obj :=
  countKeys (processes.map fun p => propertyKey p.Command)

/-- The derived value `commandData`. -/
def commandData (processes : List Process) : List (JSString × PropVal) :=
  chartData (commandCounts processes)

/-- The callback of `find` in `blockingQuery`: `p.State?.toLowerCase().includes("waiting for lock")`,
`undefined` (not a match) when `State` is absent or `null`. -/
def waitsForLock (J : Intrinsics) (p : Process) : Bool :=
  match p.State with
  | .val s => includes (J.toLowerCase s) (js "waiting for lock")
  | _ => false

/-- The derived value `blockingQuery`; `none` is the `undefined` of `find`. -/
def blockingQuery (J : Intrinsics) (processes : List Process) : Option Process :=
  processes.find? (waitsForLock J)

/-! ## The poll scheduler (`useEffect` on `autoRefresh`) -/

/-- A request of `fetchProcesses` awaiting its response. The fields `toggles` and `running`
record when it was issued (the number of clicks on the refresh button so far and the value of
`autoRefresh`); no step reads them, they serve to state properties of runs. -/
structure Request where
  id : Nat
  toggles : Nat
  running : Bool
deriving DecidableEq, Repr

/-- The component between two events: its React state, whether it is still mounted, whether
`intervalRef.current` is a live interval, the requests in flight, the number of requests
issued and the number of clicks on the refresh button (the last one is read by no step). -/
structure Scheduler where
  app : AppState
  mounted : Bool
  interval : Bool
  pending : List Request
  issued : Nat
  toggles : Nat
deriving DecidableEq, Repr

/-- The early return of the render, `loading && processes.length === 0`: the full-page
loader is shown instead of the header, its buttons and the table. -/
def loaderShown (st : AppState) : Bool :=
  st.loading &&
    match st.processes with
    | .rows ps => ps.length == 0
    | .notArray => false

/-- A call `fetchProcesses()` up to its `await`: `setLoading(true)` and the request is sent. -/
def callFetchProcesses (s : Scheduler) : Scheduler :=
  { s with
    app := fetchStart s.app
    pending := s.pending ++ [{ id := s.issued, toggles := s.toggles, running := s.app.autoRefresh }]
    issued := s.issued + 1 }

/-- The effect of `useEffect(..., [autoRefresh])`, run after the cleanup of the previous one:
`fetchProcesses()`, then `clearInterval(intervalRef.current)`, then a new interval when
`autoRefresh` holds (`fetchDatabases()` sets only `databases`, which `AppState` leaves out). -/
def runEffect (s : Scheduler) : Scheduler :=
  { callFetchProcesses s with interval := s.app.autoRefresh }

/-- The component after mounting: the effect has run once on the initial state. -/
def mount : Scheduler :=
  runEffect
    { app := AppState.init, mounted := true, interval := false, pending := [], issued := 0,
      toggles := 0 }

/-- What can happen to the mounted component in the poll scheduler: a click on the refresh
button (a pause when `autoRefresh` holds, a resume otherwise), a tick of the interval, and the
settling of the request `id` at clock reading `now`. -/
inductive Event where
  | clickRefresh
  | tick
  | response (id : Nat) (now : JSString) (res : Response)
deriving DecidableEq, Repr

/-- One event. Nothing happens to a component that is no longer mounted. The click, possible
only when the header is rendered, is `setAutoRefresh(!autoRefresh)` followed by the effect; a
tick calls `fetchProcesses` when the interval is live; a response resumes the awaiting
`fetchProcesses`, whatever has happened since its request was sent. When the stored body is
not an array the next render throws (`[...processes]`, `processes.reduce`), React unmounts
the component and the cleanup clears the interval. -/
def step (s : Scheduler) : Event → Scheduler
  | .clickRefresh =>
      if s.mounted && !loaderShown s.app then
        runEffect { s with
          app := { s.app with autoRefresh := !s.app.autoRefresh }
          toggles := s.toggles + 1 }
      else s
  | .tick => if s.mounted && s.interval then callFetchProcesses s else s
  | .response id now res =>
      if s.mounted && s.pending.any (fun r => r.id == id) then
        match (fetchResolve s.app now res).processes with
        | .rows _ =>
          { s with
            app := fetchResolve s.app now res
            pending := s.pending.filter (fun r => r.id != id) }
        | .notArray =>
          { s with
            app := fetchResolve s.app now res
            mounted := false
            interval := false
            pending := s.pending.filter (fun r => r.id != id) }
      else s

/-- The component after the events `es`, from mounting. -/
def run (es : List Event) : Scheduler := es.foldl step mount

/-- The request `r` was issued before the scheduler was stopped and restarted: since its
issue there has been a pause and, after it, a resume (two clicks when it was issued while
running, three when it was issued while stopped). -/
def superseded (s : Scheduler) (r : Request) : Bool :=
  decide (r.toggles + (if r.running then 2 else 3) ≤ s.toggles)

/-- The property that responses of superseded requests are discarded: in every run, the
response of a pending request issued before a stop and a restart leaves the snapshot and the
resource history unchanged. -/
def StaleResponsesDiscarded : Prop :=
  ∀ (es : List Event) (r : Request) (now : JSString) (res : Response),
    r ∈ (run es).pending → superseded (run es) r = true →
    (step (run es) (.response r.id now res)).app.processes = (run es).app.processes ∧
    (step (run es) (.response r.id now res)).app.resourceHistory
      = (run es).app.resourceHistory

/-! ## Reference notions the properties are stated with -/

/-- One code unit lower-cased, on the ASCII letters: `A`..`Z` go to `a`..`z`, every other code
unit is kept. -/
def lowerUnit (u : Nat) : Nat := if 65 ≤ u ∧ u ≤ 90 then u + 32 else u

/-- Lower-casing of the ASCII letters: what `toLowerCase` does on a string of ASCII
characters. -/
def asciiLowerCase (s : JSString) : JSString := s.map lowerUnit

/-- The number a run of decimal digits denotes (0 for the empty run), `NaN` for a string with
another character: what `StringToNumber` does on the empty string, on runs of decimal digits,
and on strings without a digit that are neither blank nor a spelling of `Infinity`. -/
def digitsToNumber (s : JSString) : JSNumber :=
  match decimalFrom 0 s with
  | some n => JSNumber.round ((n : Int) * ((2 ^ 1074 : Nat) : Int))
  | none => .nan

set_option exponentiation.threshold 4096 in
/-- The intrinsics used to evaluate the definitions on concrete inputs: on these (strings of
ASCII letters, digits and blanks to lower-case; the strings `100`, `9` and `x` to convert)
they are what every engine computes. -/
def ascii : Intrinsics :=
  { toLowerCase := asciiLowerCase
    stringToNumber := digitsToNumber
    toLowerCase_empty := rfl
    stringToNumber_empty := by
      simp [digitsToNumber, decimalFrom, JSNumber.round, roundMantissa, bitLength,
        bitLengthFrom] }

/-- The distinct elements of a list, in the order of their first occurrence. -/
def firstOccurrences [DecidableEq α] : List α → List α
  | [] => []
  | a :: l => a :: (firstOccurrences l).filter (fun b => b ≠ a)

/-- A record with only `User`, `CPU` and `Memory` set, the last two to integers. -/
def Process.mk3 (user : String) (cpu memory : Int) : Process :=
  { Id := .undefined, User := .val (js user), Host := .undefined, Db := .undefined,
    Command := .undefined, Time := .undefined, State := .undefined, Info := .undefined,
    CPU := .val (JSNumber.ofInt cpu), Memory := .val (JSNumber.ofInt memory) }

/-- A record with the given `Id`, `User` and `State` and nothing else. -/
def Process.row (id : Int) (user state : String) : Process :=
  { Id := .val id, User := .val (js user), Host := .undefined, Db := .undefined,
    Command := .undefined, Time := .undefined, State := .val (js state), Info := .undefined,
    CPU := .undefined, Memory := .undefined }

/-- A record with the given `Id` and `Time` and nothing else. -/
def Process.timed (id : Int) (time : JSVal) : Process :=
  { Id := .val id, User := .undefined, Host := .undefined, Db := .undefined,
    Command := .undefined, Time := time, State := .undefined, Info := .undefined,
    CPU := .undefined, Memory := .undefined }

/-- The left-to-right sum of doubles from 0, each addition rounded. -/
def floatSum (xs : List JSNumber) : JSNumber := xs.foldl JSNumber.add (.fin 0)

/-- The `CPU` property when it is a number (`NaN` otherwise). -/
def cpuValue (p : Process) : JSNumber :=
  match p.CPU with
  | .val x => x
  | _ => .nan

/-- The `Memory` property when it is a number (`NaN` otherwise). -/
def memoryValue (p : Process) : JSNumber :=
  match p.Memory with
  | .val x => x
  | _ => .nan

/-- The snapshot `[{cpu:10,memory:5},{cpu:20,memory:15}]` of users `a` and `b`. -/
def exampleSnapshot : List Process := [Process.mk3 "a" 10 5, Process.mk3 "b" 20 15]

/-- A snapshot of three sessions with `CPU` 2^53, 1 and 1. -/
def bigSnapshot : List Process :=
  [Process.mk3 "a" (2 ^ 53) 0, Process.mk3 "b" 1 0, Process.mk3 "c" 1 0]

/-- The double `m * 2^e * 2^-1074`. -/
def JSNumber.scaled (m e : Nat) : JSNumber := .fin ((m * 2 ^ e : Nat) : Int)

/-- A snapshot of two sessions with `CPU` 0.1 and 0.2 (the doubles nearest to them,
`7205759403792794 * 2^-56` and `7205759403792794 * 2^-55`) and `Memory` 0.5 and 0.25. -/
def fractionSnapshot : List Process :=
  [{ Process.mk3 "a" 0 0 with
      CPU := .val (JSNumber.scaled 7205759403792794 1018)
      Memory := .val (JSNumber.scaled 1 1073) },
   { Process.mk3 "b" 0 0 with
      CPU := .val (JSNumber.scaled 7205759403792794 1019)
      Memory := .val (JSNumber.scaled 1 1072) }]

/-- Eleven polls, poll `i` at clock reading `i` with one record of CPU `i` and Memory `2 * i`. -/
def elevenPolls : List (JSString × List Process) :=
  (List.range 11).map fun i => ([i + 1], [Process.mk3 "a" (i + 1) (2 * (i + 1))])

/-- The other direction. -/
def Direction.opposite : Direction → Direction
  | .asc => .desc
  | .desc => .asc

/-- An entry whose `State` is present and, lower-cased, contains `waiting for lock`. -/
def LockWait (J : Intrinsics) (p : Process) : Prop :=
  ∃ s, p.State = .val s ∧ js "waiting for lock" <:+: J.toLowerCase s

/-- A snapshot of three sessions, the second and third waiting for a lock. -/
def lockSnapshot : List Process :=
  [Process.row 1 "root" "executing", Process.row 2 "app" "Waiting for lock",
   Process.row 3 "app" "waiting for lock on t"]

/-- A state showing `lockSnapshot` with the search `app`, sorted by `User` descending, and a
prior selection of ids 1 and 7. -/
def lockState : AppState :=
  { AppState.init with
    processes := .rows lockSnapshot
    loading := false
    search := js "app"
    sortConfig := { key := .User, direction := .desc }
    selectedProcesses := [.val 1, .val 7] }

/-- The summary the specification describes: every distinct key once, in the order of its
first occurrence, with the number of entries that have the key. -/
def groupCounts (keys : List JSString) : List (JSString × PropVal) :=
  (firstOccurrences keys).map fun k => (k, .count (keys.count k))

/-- The number a summary entry shows (0 when the value is not a count). -/
def countOf : PropVal → Nat
  | .count n => n
  | _ => 0

/-- The `User` keys of a snapshot. -/
def userKeys (S : List Process) : List JSString := S.map fun p => propertyKey p.User

/-- The `Command` keys of a snapshot. -/
def commandKeys (S : List Process) : List JSString := S.map fun p => propertyKey p.Command

/-- A snapshot of two sessions, of users `b` and `1`. -/
def digitUserSnapshot : List Process := [Process.mk3 "b" 0 0, Process.mk3 "1" 0 0]

/-- A value a numeric column may hold: absent, `null`, or a number other than `NaN`. -/
def isNumericKey : JSVal → Bool
  | .undefined => true
  | .null => true
  | .num x => x != .nan
  | .str _ => false

/-- A value a textual column may hold: absent, `null`, or a string. -/
def isTextKey : JSVal → Bool
  | .undefined => true
  | .null => true
  | .num _ => false
  | .str _ => true

/-- The number a numeric column is sorted by: its value, 0 when absent or `null`. -/
def numRank : JSVal → JSNumber
  | .num x => x
  | _ => .fin 0

/-- The text a textual column is sorted by: the lower-cased string, empty when absent or
`null`. -/
def textRank (J : Intrinsics) : JSVal → JSString
  | .str s => J.toLowerCase s
  | _ => []

/-- The column `k` of the snapshot is of one kind: all its values numeric, or all textual. -/
def homogeneous (k : Column) (S : List Process) : Bool :=
  S.all (fun p => isNumericKey (p.get k)) || S.all (fun p => isTextKey (p.get k))

/-- A consistent comparator: the sign of `comparefn(b, a)` is opposite to that of
`comparefn(a, b)`, and `≤ 0` is transitive. -/
def Consistent (comparefn : α → α → Int) : Prop :=
  (∀ a b, comparefn a b < 0 ↔ 0 < comparefn b a) ∧
  (∀ a b c, comparefn a b ≤ 0 → comparefn b c ≤ 0 → comparefn a c ≤ 0)

/-- A snapshot whose `Time` values are the strings `100` and `9` and the number 50: as
strings `100 < 9`, as numbers `9 < 50` and `50 < 100`. -/
def cycleSnapshot : List Process :=
  [Process.timed 1 (.str (js "100")), Process.timed 2 (.str (js "9")),
   Process.timed 3 (.num (JSNumber.ofInt 50))]

/-- A snapshot whose `Time` values are 5, 3, the string `x` and 4. -/
def mixedSnapshot : List Process :=
  [Process.timed 1 (.num (JSNumber.ofInt 5)), Process.timed 2 (.num (JSNumber.ofInt 3)),
   Process.timed 3 (.str (js "x")), Process.timed 4 (.num (JSNumber.ofInt 4))]

/-- A snapshot whose `Time` values are numbers and one is absent. -/
def timedSnapshot : List Process :=
  [Process.timed 1 (.num (JSNumber.ofInt 5)), Process.timed 2 .undefined,
   Process.timed 3 (.num (JSNumber.ofInt 5)), Process.timed 4 (.num (JSNumber.ofInt 3))]

/-- The body of the first response: one session of user `root`. -/
def firstSnapshot : List Process := [Process.mk3 "root" 1 2]

/-- The body of a response that arrives late: one session of user `app`. -/
def olderSnapshot : List Process := [Process.mk3 "app" 7 3]

/-- The run in which the first poll is answered with `firstSnapshot`, a tick sends a second
request, the scheduler is paused and resumed, and the request of the new cycle is answered
with `exampleSnapshot`; the request of the tick is still in flight. -/
def staleRun : List Event :=
  [.response 0 (js "12:00:00") (.resolved (.rows firstSnapshot)), .tick, .clickRefresh,
   .clickRefresh, .response 3 (js "12:00:10") (.resolved (.rows exampleSnapshot))]

/-! ## The resource history (`fetchProcesses`) -/

theorem sliceLast_length_le (n : Nat) (xs : List α) : (sliceLast n xs).length ≤ n := by
  simp only [sliceLast, List.length_drop]
  omega

theorem sliceLast_of_length_le {n : Nat} {xs : List α} (h : xs.length ≤ n) :
    sliceLast n xs = xs := by
  have : xs.length - n = 0 := by omega
  simp [sliceLast, this]

theorem sliceLast_append_sliceLast (n : Nat) (a b : List α) :
    sliceLast n (sliceLast n a ++ b) = sliceLast n (a ++ b) := by
  simp only [sliceLast, List.length_append, List.length_drop, List.drop_append_eq_append_drop,
    List.drop_drop]
  congr 2 <;> omega

theorem pollAll_append (st : AppState) (ps : List (JSString × List Process))
    (p : JSString × List Process) : pollAll st (ps ++ [p]) = poll (pollAll st ps) p := by
  simp [pollAll, List.foldl_append]

theorem poll_resourceHistory (st : AppState) (p : JSString × List Process) :
    (poll st p).resourceHistory = pushSample st.resourceHistory (sampleOf p.1 p.2) := rfl

theorem pollAll_resourceHistory (st : AppState) (ps : List (JSString × List Process))
    (h : st.resourceHistory.length ≤ 10) :
    (pollAll st ps).resourceHistory
      = sliceLast 10 (st.resourceHistory ++ ps.map fun p => sampleOf p.1 p.2) := by
  induction ps using List.reverseRecOn with
  | nil => simp [pollAll, sliceLast_of_length_le h]
  | append_singleton ps p ih =>
    rw [pollAll_append, poll_resourceHistory, ih, pushSample, sliceLast_append_sliceLast]
    simp

/-- C1: starting from an empty resource history, after any run of successful polls the
history holds at most 10 samples, and after exactly 11 polls it holds the samples of polls
2 to 11 in poll order. -/
theorem resourceHistory_bounded (st : AppState) (ps : List (JSString × List Process))
    (h0 : st.resourceHistory = []) :
    (pollAll st ps).resourceHistory.length ≤ 10 ∧
    (ps.length = 11 →
      (pollAll st ps).resourceHistory = (ps.drop 1).map fun p => sampleOf p.1 p.2) := by
  have h := pollAll_resourceHistory st ps (by simp [h0])
  rw [h0, List.nil_append] at h
  refine ⟨by rw [h]; exact sliceLast_length_le _ _, fun h11 => ?_⟩
  rw [h, sliceLast, List.length_map, h11, List.map_drop]

theorem resourceHistory_bounded_witness :
    (pollAll AppState.init elevenPolls).resourceHistory.length ≤ 10 ∧
    (pollAll AppState.init elevenPolls).resourceHistory
      = (elevenPolls.drop 1).map fun p => sampleOf p.1 p.2 :=
  ⟨(resourceHistory_bounded AppState.init elevenPolls rfl).1,
   (resourceHistory_bounded AppState.init elevenPolls rfl).2 rfl⟩

/-! ## The totals of a sample -/

theorem foldl_addField (f : Process → Field JSNumber) (g : Process → JSNumber)
    (S : List Process) (hS : ∀ p ∈ S, f p = .val (g p)) (a : JSNumber) :
    S.foldl (fun sum p => addField sum (f p)) a = (S.map g).foldl JSNumber.add a := by
  induction S generalizing a with
  | nil => rfl
  | cons p S ih =>
    have hp : f p = .val (g p) := hS p (List.mem_cons_self _ _)
    have hstep : addField a (f p) = a.add (g p) := by rw [hp]; rfl
    rw [List.foldl_cons, hstep, ih (fun q hq => hS q (List.mem_cons_of_mem _ hq))]
    rfl

theorem totalCPU_numeric (S : List Process) (hS : ∀ p ∈ S, ∃ c, p.CPU = .val c) :
    totalCPU S = floatSum (S.map cpuValue) :=
  foldl_addField (fun p => p.CPU) cpuValue S
    (fun p hp => by obtain ⟨c, hc⟩ := hS p hp; simp [cpuValue, hc]) _

theorem totalMemory_numeric (S : List Process) (hS : ∀ p ∈ S, ∃ m, p.Memory = .val m) :
    totalMemory S = floatSum (S.map memoryValue) :=
  foldl_addField (fun p => p.Memory) memoryValue S
    (fun p hp => by obtain ⟨c, hc⟩ := hS p hp; simp [memoryValue, hc]) _

theorem bitLengthFrom_le (fuel n acc k : Nat) (h : n < 2 ^ k) :
    bitLengthFrom fuel n acc ≤ acc + k := by
  induction fuel generalizing n acc k with
  | zero => simp [bitLengthFrom]
  | succ fuel ih =>
    rw [bitLengthFrom]
    split
    · omega
    · rename_i hn
      cases k with
      | zero => simp at h; exact absurd h hn
      | succ k =>
        have h2 : n / 2 < 2 ^ k := by
          rw [Nat.div_lt_iff_lt_mul (by decide)]
          rw [pow_succ] at h
          exact h
        have := ih (n / 2) (acc + 1) k h2
        omega

theorem roundMantissa_of_dvd (m : Nat) (h : 2 ^ (bitLength m - 53) ∣ m) :
    roundMantissa m = m := by
  unfold roundMantissa
  have hr : m % 2 ^ (bitLength m - 53) = 0 := Nat.mod_eq_zero_of_dvd h
  have hpos : 0 < 2 ^ (bitLength m - 53) := Nat.two_pow_pos _
  simp only [hr, Nat.mul_zero]
  rw [if_neg]
  · exact Nat.div_mul_cancel h
  · intro hc
    rcases hc with hc | ⟨hc, _⟩
    · exact Nat.not_lt_zero _ hc
    · rw [← hc] at hpos
      exact Nat.lt_irrefl _ hpos

theorem roundMantissa_units (x e : Nat) (hx : x < 2 ^ 53) :
    roundMantissa (x * 2 ^ e) = x * 2 ^ e := by
  apply roundMantissa_of_dvd
  have hlt : x * 2 ^ e < 2 ^ (53 + e) := by
    rw [pow_add]
    exact Nat.mul_lt_mul_of_pos_right hx (Nat.two_pow_pos _)
  have hb : bitLength (x * 2 ^ e) ≤ 53 + e := by
    have := bitLengthFrom_le 2200 (x * 2 ^ e) 0 (53 + e) hlt
    simpa [bitLength] using this
  have hsh : bitLength (x * 2 ^ e) - 53 ≤ e := by
    generalize bitLength (x * 2 ^ e) = b at hb
    omega
  exact Dvd.dvd.mul_left (pow_dvd_pow 2 hsh) x

set_option exponentiation.threshold 4096 in
theorem round_scaled (n : Int) (e : Nat) (he : 53 + e ≤ 2098) (hn : n.natAbs < 2 ^ 53) :
    JSNumber.round (n * ((2 ^ e : Nat) : Int)) = .fin (n * ((2 ^ e : Nat) : Int)) := by
  generalize hu : (2 ^ e : Nat) = u
  have hupos : 0 < u := by rw [← hu]; exact Nat.two_pow_pos _
  have habs : (n * (u : Int)).natAbs = n.natAbs * u := by
    rw [Int.natAbs_mul, Int.natAbs_ofNat]
  have hm : roundMantissa (n.natAbs * u) = n.natAbs * u := by
    rw [← hu]
    exact roundMantissa_units n.natAbs e hn
  have hsmall : ¬ 2 ^ 2098 ≤ n.natAbs * u := by
    have h1 : n.natAbs * u < 2 ^ 53 * u := Nat.mul_lt_mul_of_pos_right hn hupos
    have h2 : 2 ^ 53 * u ≤ 2 ^ 2098 := by
      rw [← hu, ← pow_add]
      exact Nat.pow_le_pow_right (by decide) he
    exact Nat.not_le.mpr (lt_of_lt_of_le h1 h2)
  unfold JSNumber.round
  rw [habs, hm, if_neg hsmall]
  congr 1
  have hp : (0 : Int) < (u : Int) := by exact_mod_cast hupos
  by_cases hneg : n < 0
  · have h3 : n * (u : Int) < 0 := Int.mul_neg_of_neg_of_pos hneg hp
    rw [if_pos h3]
    push_cast
    rw [abs_of_neg hneg]
    ring
  · have h3 : ¬ n * (u : Int) < 0 := by
      have : 0 ≤ n * (u : Int) := Int.mul_nonneg (by omega) (le_of_lt hp)
      exact not_lt.mpr this
    rw [if_neg h3]
    push_cast
    rw [abs_of_nonneg (not_lt.mp hneg)]

theorem add_ofInt (a b : Int) (h : (a + b).natAbs < 2 ^ 53) :
    (JSNumber.ofInt a).add (JSNumber.ofInt b) = JSNumber.ofInt (a + b) := by
  have hsum : ∀ u : Int, a * u + b * u = (a + b) * u := fun u => by ring
  show JSNumber.round (a * ((2 ^ 1074 : Nat) : Int) + b * ((2 ^ 1074 : Nat) : Int)) = _
  rw [hsum, round_scaled _ 1074 (by decide) h]
  rfl

theorem foldl_add_ofInt (cs : List Int) (a : Int)
    (h : ∀ n, (a + (cs.take n).sum).natAbs < 2 ^ 53) :
    (cs.map JSNumber.ofInt).foldl JSNumber.add (JSNumber.ofInt a)
      = JSNumber.ofInt (a + cs.sum) := by
  induction cs generalizing a with
  | nil => simp
  | cons c cs ih =>
    have h1 : (a + c).natAbs < 2 ^ 53 := by simpa using h 1
    rw [List.map_cons, List.foldl_cons, add_ofInt a c h1, ih (a + c)]
    · simp [add_assoc]
    · intro n
      have := h (n + 1)
      simpa [add_assoc] using this

theorem floatSum_ofInt (cs : List Int) (h : ∀ n, ((cs.take n).sum).natAbs < 2 ^ 53) :
    floatSum (cs.map JSNumber.ofInt) = JSNumber.ofInt cs.sum := by
  have h0 : JSNumber.fin 0 = JSNumber.ofInt 0 := by
    unfold JSNumber.ofInt
    rw [Int.zero_mul]
  have := foldl_add_ofInt cs 0 (by simpa using h)
  rw [floatSum, h0, this]
  simp

theorem pushSample_getLast? (h : List Sample) (s : Sample) :
    (pushSample h s).getLast? = some s := by
  rw [pushSample, sliceLast, List.getLast?_drop, if_neg (by simp; omega), List.getLast?_concat]

theorem pushSample_suffix (h : List Sample) (s : Sample) : pushSample h s <:+ h ++ [s] :=
  List.drop_suffix _ _

set_option exponentiation.threshold 4096 in
set_option maxRecDepth 100000 in
/-- C2, as stated, fails: for the snapshot with `CPU` 2^53, 1 and 1 the appended sample has
cpu 2^53 = 9007199254740992, while the sum of `CPU` over the snapshot is 9007199254740994
(a double as well). -/
theorem poll_total_not_exact_sum :
    (poll AppState.init (js "12:00:00", bigSnapshot)).resourceHistory.getLast?
      = some { name := js "12:00:00", cpu := JSNumber.ofInt 9007199254740992,
               memory := JSNumber.ofInt 0 } ∧
    bigSnapshot.map cpuValue
      = [(2 : Int) ^ 53, 1, 1].map JSNumber.ofInt ∧
    ([(2 : Int) ^ 53, 1, 1]).sum = 9007199254740994 ∧
    JSNumber.ofInt 9007199254740992 ≠ JSNumber.ofInt 9007199254740994 := by
  decide

/-- C2, amended: for a snapshot whose `CPU` and `Memory` properties are all numbers, a
successful poll leaves as last element of the history the sample whose cpu and memory are the
sums of `CPU` and of `Memory` accumulated from 0 in snapshot order in double-precision
arithmetic, the history being a final segment of the prior history followed by that sample.
When the values are integers and every partial sum is below 2^53 in magnitude the totals are
the exact sums; they are 0 and 0 for the empty snapshot and 30 and 20 for the example
snapshot. -/
theorem poll_appends_totals (st : AppState) (now : JSString) (S : List Process)
    (hS : ∀ p ∈ S, (∃ c, p.CPU = .val c) ∧ ∃ m, p.Memory = .val m) :
    (poll st (now, S)).resourceHistory.getLast?
        = some { name := now, cpu := floatSum (S.map cpuValue),
                 memory := floatSum (S.map memoryValue) } ∧
    (poll st (now, S)).resourceHistory
        <:+ st.resourceHistory ++ [{ name := now, cpu := floatSum (S.map cpuValue),
                                      memory := floatSum (S.map memoryValue) }] ∧
    (∀ cs ms : List Int,
      S.map cpuValue = cs.map JSNumber.ofInt → S.map memoryValue = ms.map JSNumber.ofInt →
      (∀ n, ((cs.take n).sum).natAbs < 2 ^ 53) → (∀ n, ((ms.take n).sum).natAbs < 2 ^ 53) →
      (poll st (now, S)).resourceHistory.getLast?
        = some { name := now, cpu := JSNumber.ofInt cs.sum,
                 memory := JSNumber.ofInt ms.sum }) ∧
    (poll st (now, [])).resourceHistory.getLast?
        = some { name := now, cpu := JSNumber.ofInt 0, memory := JSNumber.ofInt 0 } ∧
    (poll st (now, exampleSnapshot)).resourceHistory.getLast?
        = some { name := now, cpu := JSNumber.ofInt 30, memory := JSNumber.ofInt 20 } := by
  have hs : sampleOf now S
      = Sample.mk now (floatSum (S.map cpuValue)) (floatSum (S.map memoryValue)) := by
    rw [sampleOf, totalCPU_numeric S (fun p hp => (hS p hp).1),
      totalMemory_numeric S (fun p hp => (hS p hp).2)]
  have hex : sampleOf now exampleSnapshot
      = Sample.mk now (JSNumber.ofInt 30) (JSNumber.ofInt 20) := by
    have hc : totalCPU exampleSnapshot = JSNumber.ofInt 30 := by
      have h := floatSum_ofInt [10, 20] (fun n => by
        match n with
        | 0 => decide
        | 1 => decide
        | n + 2 => simp)
      exact h
    have hm : totalMemory exampleSnapshot = JSNumber.ofInt 20 := by
      have h := floatSum_ofInt [5, 15] (fun n => by
        match n with
        | 0 => decide
        | 1 => decide
        | n + 2 => simp)
      exact h
    rw [sampleOf, hc, hm]
  refine ⟨?_, ?_, ?_, ?_, ?_⟩
  · rw [poll_resourceHistory, pushSample_getLast?, hs]
  · rw [poll_resourceHistory, ← hs]
    exact pushSample_suffix _ _
  · intro cs ms hc hm hcs hms
    rw [poll_resourceHistory, pushSample_getLast?, hs, hc, hm, floatSum_ofInt cs hcs,
      floatSum_ofInt ms hms]
  · rw [poll_resourceHistory, pushSample_getLast?]
    have h0 : JSNumber.ofInt 0 = JSNumber.fin 0 := by
      unfold JSNumber.ofInt
      rw [Int.zero_mul]
    rw [h0]
    rfl
  · rw [poll_resourceHistory, pushSample_getLast?]
    exact congrArg some hex

set_option exponentiation.threshold 4096 in
set_option maxRecDepth 100000 in
theorem poll_appends_totals_witness :
    (poll AppState.init (js "12:00:00", exampleSnapshot)).resourceHistory.getLast?
      = some { name := js "12:00:00", cpu := JSNumber.ofInt (([10, 20] : List Int).sum),
               memory := JSNumber.ofInt (([5, 15] : List Int).sum) } ∧
    ((poll AppState.init (js "12:00:05", fractionSnapshot)).resourceHistory.getLast?
      = some { name := js "12:00:05", cpu := floatSum (fractionSnapshot.map cpuValue),
               memory := floatSum (fractionSnapshot.map memoryValue) } ∧
     floatSum (fractionSnapshot.map cpuValue) = JSNumber.scaled 5404319552844596 1020 ∧
     floatSum (fractionSnapshot.map memoryValue) = JSNumber.scaled 3 1072) :=
  ⟨(poll_appends_totals AppState.init (js "12:00:00") exampleSnapshot (by
      intro p hp
      simp only [exampleSnapshot, List.mem_cons, List.mem_singleton, List.not_mem_nil,
        or_false] at hp
      rcases hp with rfl | rfl <;> exact ⟨⟨_, rfl⟩, ⟨_, rfl⟩⟩)).2.2.1 [10, 20] [5, 15] rfl rfl
    (fun n => by
      match n with
      | 0 => decide
      | 1 => decide
      | n + 2 => simp)
    (fun n => by
      match n with
      | 0 => decide
      | 1 => decide
      | n + 2 => simp),
   (poll_appends_totals AppState.init (js "12:00:05") fractionSnapshot (by
      intro p hp
      simp only [fractionSnapshot, List.mem_cons, List.mem_singleton, List.not_mem_nil,
        or_false] at hp
      rcases hp with rfl | rfl <;> exact ⟨⟨_, rfl⟩, ⟨_, rfl⟩⟩)).1,
   by decide, by decide⟩

/-! ## `Array.prototype.sort`: the result is a permutation -/

theorem binaryInsert_perm (cmp : α → α → Int) (work : List α) (pivot : α) :
    (binaryInsert cmp work pivot).Perm (pivot :: work) := by
  unfold binaryInsert
  refine List.perm_middle.trans ?_
  rw [List.take_append_drop]

theorem foldl_binaryInsert_perm (cmp : α → α → Int) (rest run : List α) :
    (rest.foldl (binaryInsert cmp) run).Perm (run ++ rest) := by
  induction rest generalizing run with
  | nil => simp
  | cons x rest ih =>
    rw [List.foldl_cons]
    refine (ih _).trans ?_
    refine ((binaryInsert_perm cmp run x).append_right rest).trans ?_
    have h : (run ++ x :: rest).Perm (x :: (run ++ rest)) := List.perm_middle
    exact h.symm

theorem arraySort_perm (cmp : α → α → Int) (l : List α) : (arraySort cmp l).Perm l := by
  match l with
  | [] => exact List.Perm.refl _
  | [a] => exact List.Perm.refl _
  | a :: b :: rest =>
    simp only [arraySort]
    refine (foldl_binaryInsert_perm cmp _ _).trans ?_
    have hrun : (if decide (cmp b a < 0) = true
        then (a :: b :: rest.take (runLength cmp (decide (cmp b a < 0)) b rest)).reverse
        else a :: b :: rest.take (runLength cmp (decide (cmp b a < 0)) b rest)).Perm
        (a :: b :: rest.take (runLength cmp (decide (cmp b a < 0)) b rest)) := by
      split
      · exact List.reverse_perm _
      · exact List.Perm.refl _
    refine (hrun.append_right _).trans ?_
    simp only [List.cons_append, List.take_append_drop]
    exact List.Perm.refl _

/-! ## `Array.prototype.sort`: naturality -/

theorem runLength_map (f : β → α) (cmp : α → α → Int) (d : Bool) (prev : β) (rest : List β) :
    runLength cmp d (f prev) (rest.map f)
      = runLength (fun a b => cmp (f a) (f b)) d prev rest := by
  induction rest generalizing prev with
  | nil => rfl
  | cons x rest ih => simp only [List.map_cons, runLength, ih]

theorem insertionPoint_map (f : β → α) (cmp : α → α → Int) (pivot : β) (work : List β)
    (fuel left right : Nat) :
    insertionPoint cmp (f pivot) (work.map f) fuel left right
      = insertionPoint (fun a b => cmp (f a) (f b)) pivot work fuel left right := by
  induction fuel generalizing left right with
  | zero => rfl
  | succ fuel ih =>
    simp only [insertionPoint, List.getElem?_map]
    cases work[left + (right - left) / 2]? with
    | none => rfl
    | some x => simp only [Option.map_some', ih]

theorem binaryInsert_map (f : β → α) (cmp : α → α → Int) (work : List β) (pivot : β) :
    binaryInsert cmp (work.map f) (f pivot)
      = (binaryInsert (fun a b => cmp (f a) (f b)) work pivot).map f := by
  simp only [binaryInsert, insertionPoint_map, List.length_map, List.map_append, List.map_cons,
    List.map_take, List.map_drop]

theorem foldl_binaryInsert_map (f : β → α) (cmp : α → α → Int) (rest run : List β) :
    (rest.map f).foldl (binaryInsert cmp) (run.map f)
      = (rest.foldl (binaryInsert (fun a b => cmp (f a) (f b))) run).map f := by
  induction rest generalizing run with
  | nil => rfl
  | cons x rest ih => rw [List.map_cons, List.foldl_cons, binaryInsert_map, ih, List.foldl_cons]

theorem arraySort_map (f : β → α) (cmp : α → α → Int) (l : List β) :
    arraySort cmp (l.map f) = (arraySort (fun a b => cmp (f a) (f b)) l).map f := by
  match l with
  | [] => rfl
  | [a] => rfl
  | a :: b :: rest =>
    simp only [List.map_cons, arraySort, runLength_map]
    rw [← List.map_drop, ← List.map_take]
    by_cases hd : cmp (f b) (f a) < 0
    · simp only [hd, decide_True, if_true]
      rw [← foldl_binaryInsert_map]
      simp only [List.map_reverse, List.map_cons]
    · simp only [hd, decide_False, Bool.false_eq_true, if_false]
      rw [← foldl_binaryInsert_map]
      simp only [List.map_cons]

/-! ## `Array.prototype.sort`: a consistent comparator -/

theorem insertionPoint_split (cmp : α → α → Int) (pivot : α) (A B : List α)
    (hA : ∀ x ∈ A, ¬ cmp pivot x < 0) (hB : ∀ x ∈ B, cmp pivot x < 0)
    (fuel left right : Nat) (hl : left ≤ A.length) (hr : A.length ≤ right)
    (hlen : right ≤ (A ++ B).length) (hfuel : right - left ≤ fuel) :
    insertionPoint cmp pivot (A ++ B) fuel left right = A.length := by
  induction fuel generalizing left right with
  | zero =>
    rw [insertionPoint]
    omega
  | succ fuel ih =>
    rw [insertionPoint]
    by_cases hlt : left < right
    · rw [if_pos hlt]
      have hmid : left + (right - left) / 2 < right := by omega
      have hmidlen : left + (right - left) / 2 < (A ++ B).length := by omega
      rw [List.getElem?_eq_getElem hmidlen]
      simp only
      by_cases hmA : left + (right - left) / 2 < A.length
      · have hx : (A ++ B)[left + (right - left) / 2] ∈ A := by
          rw [List.getElem_append_left hmA]
          exact List.getElem_mem _
        rw [if_neg (hA _ hx)]
        exact ih _ _ (by omega) hr hlen (by omega)
      · have hx : (A ++ B)[left + (right - left) / 2] ∈ B := by
          rw [List.getElem_append_right (by omega)]
          exact List.getElem_mem _
        rw [if_pos (hB _ hx)]
        exact ih _ _ hl (by omega) (by omega) (by omega)
    · rw [if_neg hlt]
      omega

theorem binaryInsert_split (cmp : α → α → Int) (pivot : α) (A B : List α)
    (hA : ∀ x ∈ A, ¬ cmp pivot x < 0) (hB : ∀ x ∈ B, cmp pivot x < 0) :
    binaryInsert cmp (A ++ B) pivot = A ++ pivot :: B := by
  unfold binaryInsert
  rw [insertionPoint_split cmp pivot A B hA hB _ 0 _ (Nat.zero_le _) (by simp) (le_refl _)
    (by omega)]
  rw [List.take_left', List.drop_left'] <;> rfl

theorem Consistent.not_lt {cmp : α → α → Int} (hc : Consistent cmp) (a b : α) :
    ¬ cmp a b < 0 ↔ cmp b a ≤ 0 := by
  rw [hc.1 a b]
  omega

theorem Consistent.lt_of_lt_of_le {cmp : α → α → Int} (hc : Consistent cmp) {a b c : α}
    (hab : cmp a b < 0) (hbc : cmp b c ≤ 0) : cmp a c < 0 := by
  by_contra h
  have h1 : cmp c a ≤ 0 := (hc.not_lt a c).1 h
  have h2 : cmp b a ≤ 0 := hc.2 b c a hbc h1
  exact ((hc.not_lt a b).2 h2) hab

theorem Consistent.symm_zero {cmp : α → α → Int} (hc : Consistent cmp) {a b : α}
    (h : cmp a b = 0) : cmp b a = 0 := by
  have h1 := hc.1 a b
  have h2 := hc.1 b a
  omega

theorem Consistent.zero_le {cmp : α → α → Int} (hc : Consistent cmp) {p a b : α}
    (ha : cmp p a = 0) (hb : cmp p b = 0) : cmp a b ≤ 0 :=
  hc.2 a p b (by rw [hc.symm_zero ha]) (by rw [hb])

theorem dropWhile_gt (cmp : α → α → Int) (hc : Consistent cmp) (pivot : α) (work : List α)
    (hs : work.Pairwise (fun a b => cmp a b ≤ 0)) :
    ∀ x ∈ work.dropWhile (fun x => decide (¬ cmp pivot x < 0)), cmp pivot x < 0 := by
  induction work with
  | nil => simp
  | cons y t ih =>
    rw [List.pairwise_cons] at hs
    by_cases hy : cmp pivot y < 0
    · intro x hx
      rw [List.dropWhile_cons_of_neg (by simpa using hy)] at hx
      rcases List.mem_cons.1 hx with rfl | hxt
      · exact hy
      · exact hc.lt_of_lt_of_le hy (hs.1 x hxt)
    · rw [List.dropWhile_cons_of_pos (by simpa using hy)]
      exact ih hs.2

theorem takeWhile_le (cmp : α → α → Int) (pivot : α) (work : List α) :
    ∀ x ∈ work.takeWhile (fun x => decide (¬ cmp pivot x < 0)), ¬ cmp pivot x < 0 := by
  intro x hx
  have := List.mem_takeWhile_imp hx
  simpa using this

theorem binaryInsert_sorted_eq (cmp : α → α → Int) (hc : Consistent cmp) (pivot : α)
    (work : List α) (hs : work.Pairwise (fun a b => cmp a b ≤ 0)) :
    binaryInsert cmp work pivot
      = work.takeWhile (fun x => decide (¬ cmp pivot x < 0))
        ++ pivot :: work.dropWhile (fun x => decide (¬ cmp pivot x < 0)) := by
  have h := binaryInsert_split cmp pivot _ _ (takeWhile_le cmp pivot work)
    (dropWhile_gt cmp hc pivot work hs)
  rwa [List.takeWhile_append_dropWhile] at h

theorem binaryInsert_sorted (cmp : α → α → Int) (hc : Consistent cmp) (pivot : α)
    (work : List α) (hs : work.Pairwise (fun a b => cmp a b ≤ 0)) :
    (binaryInsert cmp work pivot).Pairwise (fun a b => cmp a b ≤ 0) := by
  rw [binaryInsert_sorted_eq cmp hc pivot work hs]
  have hsplit := List.takeWhile_append_dropWhile (fun x => decide (¬ cmp pivot x < 0)) work
  rw [← hsplit, List.pairwise_append] at hs
  rw [List.pairwise_append, List.pairwise_cons]
  refine ⟨hs.1, ⟨fun b hb => le_of_lt (dropWhile_gt cmp hc pivot work
    (by rw [← hsplit, List.pairwise_append]; exact hs) b hb), hs.2.1⟩, ?_⟩
  intro a ha b hb
  rcases List.mem_cons.1 hb with rfl | hbB
  · exact (hc.not_lt _ _).1 (takeWhile_le cmp _ work a ha)
  · exact hs.2.2 a ha b hbB

theorem binaryInsert_filter (cmp : α → α → Int) (hc : Consistent cmp) (pivot p : α)
    (work : List α) (hs : work.Pairwise (fun a b => cmp a b ≤ 0)) :
    (binaryInsert cmp work pivot).filter (fun q => decide (cmp p q = 0))
      = (work ++ [pivot]).filter (fun q => decide (cmp p q = 0)) := by
  rw [binaryInsert_sorted_eq cmp hc pivot work hs]
  have hsplit := List.takeWhile_append_dropWhile (fun x => decide (¬ cmp pivot x < 0)) work
  have hgt := dropWhile_gt cmp hc pivot work hs
  generalize work.takeWhile (fun x => decide (¬ cmp pivot x < 0)) = A at hsplit
  generalize work.dropWhile (fun x => decide (¬ cmp pivot x < 0)) = B at hsplit hgt
  rw [← hsplit]
  simp only [List.filter_append, List.filter_cons, List.filter_nil, List.append_assoc]
  by_cases hp : cmp p pivot = 0
  · have hB : B.filter (fun q => decide (cmp p q = 0)) = [] := by
      rw [List.filter_eq_nil_iff]
      intro b hb hpb
      have hpb' : cmp p b = 0 := by simpa using hpb
      have hle : cmp b pivot ≤ 0 := hc.zero_le hpb' hp
      exact (hc.not_lt pivot b).2 hle (hgt b hb)
    simp [hp, hB]
  · simp [hp]

theorem runLength_chain_asc (cmp : α → α → Int) (prev : α) (rest : List α) :
    List.Chain (fun u v => 0 ≤ cmp v u) prev (rest.take (runLength cmp false prev rest)) := by
  induction rest generalizing prev with
  | nil => exact List.Chain.nil
  | cons x rest ih =>
    rw [runLength]
    by_cases h : 0 ≤ cmp x prev
    · simp only [Bool.false_eq_true, if_false, h, if_true, List.take_succ_cons]
      exact List.Chain.cons h (ih x)
    · simp only [Bool.false_eq_true, if_false, h, List.take_zero]
      exact List.Chain.nil

theorem runLength_chain_desc (cmp : α → α → Int) (prev : α) (rest : List α) :
    List.Chain (fun u v => cmp v u < 0) prev (rest.take (runLength cmp true prev rest)) := by
  induction rest generalizing prev with
  | nil => exact List.Chain.nil
  | cons x rest ih =>
    rw [runLength]
    by_cases h : cmp x prev < 0
    · simp only [if_true, h, List.take_succ_cons]
      exact List.Chain.cons h (ih x)
    · simp only [if_true, h, if_false, List.take_zero]
      exact List.Chain.nil

theorem reverse_eq_of_pairwise_false (l : List α) (h : l.Pairwise (fun _ _ => False)) :
    l.reverse = l := by
  match l with
  | [] => rfl
  | [x] => rfl
  | x :: y :: t =>
    rw [List.pairwise_cons] at h
    exact (h.1 y (List.mem_cons_self _ _)).elim

theorem initialRun_sorted (cmp : α → α → Int) (hc : Consistent cmp) (a b : α)
    (rest : List α) :
    (if decide (cmp b a < 0) = true
      then (a :: b :: rest.take (runLength cmp (decide (cmp b a < 0)) b rest)).reverse
      else a :: b :: rest.take (runLength cmp (decide (cmp b a < 0)) b rest)).Pairwise
      (fun u v => cmp u v ≤ 0) := by
  by_cases hd : cmp b a < 0
  · simp only [hd, decide_True, if_true]
    haveI : IsTrans α (fun u v => cmp v u < 0) :=
      ⟨fun u v w huv hvw => hc.lt_of_lt_of_le hvw (le_of_lt huv)⟩
    have hchain : List.Chain (fun u v => cmp v u < 0) a
        (b :: rest.take (runLength cmp true b rest)) :=
      List.Chain.cons hd (runLength_chain_desc cmp b rest)
    have hp := List.chain_iff_pairwise.1 hchain
    rw [List.pairwise_reverse]
    exact hp.imp (fun h => le_of_lt h)
  · simp only [hd, decide_False, Bool.false_eq_true, if_false]
    haveI : IsTrans α (fun u v => cmp u v ≤ 0) := ⟨fun u v w => hc.2 u v w⟩
    have hchain0 : List.Chain (fun u v => 0 ≤ cmp v u) a
        (b :: rest.take (runLength cmp false b rest)) :=
      List.Chain.cons (not_lt.mp hd) (runLength_chain_asc cmp b rest)
    have hchain : List.Chain (fun u v => cmp u v ≤ 0) a
        (b :: rest.take (runLength cmp false b rest)) := by
      refine hchain0.imp ?_
      intro u v h
      exact (hc.not_lt v u).1 (not_lt.mpr h)
    exact List.chain_iff_pairwise.1 hchain

theorem initialRun_filter (cmp : α → α → Int) (hc : Consistent cmp) (p a b : α)
    (rest : List α) :
    (if decide (cmp b a < 0) = true
      then (a :: b :: rest.take (runLength cmp (decide (cmp b a < 0)) b rest)).reverse
      else a :: b :: rest.take (runLength cmp (decide (cmp b a < 0)) b rest)).filter
        (fun q => decide (cmp p q = 0))
      = (a :: b :: rest.take (runLength cmp (decide (cmp b a < 0)) b rest)).filter
        (fun q => decide (cmp p q = 0)) := by
  by_cases hd : cmp b a < 0
  · simp only [hd, decide_True, if_true]
    haveI : IsTrans α (fun u v => cmp v u < 0) :=
      ⟨fun u v w huv hvw => hc.lt_of_lt_of_le hvw (le_of_lt huv)⟩
    have hchain : List.Chain (fun u v => cmp v u < 0) a
        (b :: rest.take (runLength cmp true b rest)) :=
      List.Chain.cons hd (runLength_chain_desc cmp b rest)
    have hp := List.chain_iff_pairwise.1 hchain
    rw [List.filter_reverse]
    apply reverse_eq_of_pairwise_false
    have hpf := hp.filter (fun q => decide (cmp p q = 0))
    rw [List.pairwise_iff_forall_sublist] at hpf ⊢
    intro u v huv
    have hu : u ∈ List.filter (fun q => decide (cmp p q = 0))
        (a :: b :: rest.take (runLength cmp true b rest)) :=
      huv.subset (List.mem_cons_self _ _)
    have hv : v ∈ List.filter (fun q => decide (cmp p q = 0))
        (a :: b :: rest.take (runLength cmp true b rest)) :=
      huv.subset (List.mem_cons_of_mem _ (List.mem_cons_self _ _))
    rw [List.mem_filter, decide_eq_true_eq] at hu hv
    have hlt : cmp v u < 0 := hpf huv
    exact (hc.not_lt v u).2 (hc.zero_le hu.2 hv.2) hlt
  · simp only [hd, decide_False, Bool.false_eq_true, if_false]

theorem foldl_binaryInsert_sorted (cmp : α → α → Int) (hc : Consistent cmp)
    (rest run : List α) (hs : run.Pairwise (fun a b => cmp a b ≤ 0)) :
    (rest.foldl (binaryInsert cmp) run).Pairwise (fun a b => cmp a b ≤ 0) := by
  induction rest generalizing run with
  | nil => exact hs
  | cons x rest ih => exact ih _ (binaryInsert_sorted cmp hc x run hs)

theorem foldl_binaryInsert_filter (cmp : α → α → Int) (hc : Consistent cmp) (p : α)
    (rest run : List α) (hs : run.Pairwise (fun a b => cmp a b ≤ 0)) :
    (rest.foldl (binaryInsert cmp) run).filter (fun q => decide (cmp p q = 0))
      = (run ++ rest).filter (fun q => decide (cmp p q = 0)) := by
  induction rest generalizing run with
  | nil => simp
  | cons x rest ih =>
    rw [List.foldl_cons, ih _ (binaryInsert_sorted cmp hc x run hs), List.filter_append,
      binaryInsert_filter cmp hc x p run hs]
    rw [← List.filter_append, List.append_assoc]
    rfl

theorem arraySort_sorted (cmp : α → α → Int) (hc : Consistent cmp) (l : List α) :
    (arraySort cmp l).Pairwise (fun a b => cmp a b ≤ 0) := by
  match l with
  | [] => exact List.Pairwise.nil
  | [a] => exact List.pairwise_singleton _ _
  | a :: b :: rest =>
    simp only [arraySort]
    exact foldl_binaryInsert_sorted cmp hc _ _ (initialRun_sorted cmp hc a b rest)

theorem arraySort_stable (cmp : α → α → Int) (hc : Consistent cmp) (p : α) (l : List α) :
    (arraySort cmp l).filter (fun q => decide (cmp p q = 0))
      = l.filter (fun q => decide (cmp p q = 0)) := by
  match l with
  | [] => rfl
  | [a] => rfl
  | a :: b :: rest =>
    simp only [arraySort]
    rw [foldl_binaryInsert_filter cmp hc p _ _ (initialRun_sorted cmp hc a b rest),
      List.filter_append, initialRun_filter cmp hc p a b rest, ← List.filter_append]
    simp only [List.cons_append, List.take_append_drop]

/-! ## The order of the sort keys -/

theorem strLt_irrefl (s : JSString) : strLt s s = false := by
  induction s with
  | nil => rfl
  | cons c s ih => simp [strLt, ih]

theorem strLt_asymm {s t : JSString} (h : strLt s t = true) : strLt t s = false := by
  induction s generalizing t with
  | nil => cases t <;> simp_all [strLt]
  | cons c s ih =>
    cases t with
    | nil => simp_all [strLt]
    | cons d t =>
      simp only [strLt] at h ⊢
      by_cases h1 : c < d
      · have h2 : ¬ d < c := by omega
        simp [h1, h2]
      · by_cases h2 : d < c
        · simp [h1, h2] at h
        · simp only [h1, h2, if_false] at h ⊢
          exact ih h

theorem strLt_trans {a b c : JSString} (hab : strLt a b = true) (hbc : strLt b c = true) :
    strLt a c = true := by
  induction a generalizing b c with
  | nil =>
    cases c with
    | nil => cases b <;> simp_all [strLt]
    | cons z c => rfl
  | cons x a ih =>
    cases b with
    | nil => simp [strLt] at hab
    | cons y b =>
      cases c with
      | nil => simp [strLt] at hbc
      | cons z c =>
        simp only [strLt] at hab hbc ⊢
        by_cases hxy : x < y
        · by_cases hyz : y < z
          · have : x < z := by omega
            simp [this]
          · by_cases hzy : z < y
            · simp [hyz, hzy] at hbc
            · have : x < z := by omega
              simp [this]
        · by_cases hyx : y < x
          · simp [hxy, hyx] at hab
          · simp only [hxy, hyx, if_false] at hab
            have hxy' : x = y := by omega
            subst hxy'
            by_cases hxz : x < z
            · simp [hxz]
            · by_cases hzx : z < x
              · simp [hxz, hzx] at hbc
              · simp only [hxz, hzx, if_false] at hbc ⊢
                exact ih hab hbc

theorem strLt_connex {s t : JSString} (h1 : strLt s t = false) (h2 : strLt t s = false) :
    s = t := by
  induction s generalizing t with
  | nil => cases t <;> simp_all [strLt]
  | cons c s ih =>
    cases t with
    | nil => simp [strLt] at h2
    | cons d t =>
      simp only [strLt] at h1 h2
      by_cases hcd : c < d
      · simp [hcd] at h1
      · by_cases hdc : d < c
        · simp [hdc] at h2
        · simp only [hcd, hdc, if_false] at h1 h2
          have : c = d := by omega
          rw [this, ih h1 h2]

theorem strLt_negtrans {a b c : JSString} (hba : strLt b a = false) (hcb : strLt c b = false) :
    strLt c a = false := by
  by_contra hca
  rw [Bool.not_eq_false] at hca
  by_cases hbc : strLt b c = true
  · rw [strLt_trans hbc hca] at hba
    exact Bool.noConfusion hba
  · rw [Bool.not_eq_true] at hbc
    rw [strLt_connex hbc hcb, hca] at hba
    exact Bool.noConfusion hba

theorem JSNumber.lt_asymm {x y : JSNumber} (h : x.lt y = true) : y.lt x = false := by
  cases x <;> cases y <;> simp_all [JSNumber.lt]
  omega

theorem JSNumber.lt_negtrans {a b c : JSNumber} (ha : a ≠ .nan) (hb : b ≠ .nan)
    (hc : c ≠ .nan) (hba : b.lt a = false) (hcb : c.lt b = false) : c.lt a = false := by
  cases a <;> cases b <;> cases c <;> simp_all [JSNumber.lt]
  omega

theorem jsLt_asymm (J : Intrinsics) {v w : JSVal} (h : jsLt J v w = true) :
    jsLt J w v = false := by
  cases v <;> cases w <;> simp only [jsLt] at h ⊢ <;>
    first
    | exact strLt_asymm h
    | exact JSNumber.lt_asymm h

theorem sortKey_numeric (J : Intrinsics) {v w : JSVal} (hv : isNumericKey v = true)
    (hw : isNumericKey w = true) :
    jsLt J (lowerIfString J (orEmpty v)) (lowerIfString J (orEmpty w))
      = (numRank v).lt (numRank w) := by
  cases v <;> cases w <;>
    simp_all [isNumericKey, orEmpty, lowerIfString, jsLt, toNumber, numRank,
      J.toLowerCase_empty, J.stringToNumber_empty, strLt, JSNumber.lt]

theorem numRank_ne_nan {v : JSVal} (hv : isNumericKey v = true) : numRank v ≠ .nan := by
  cases v <;> simp_all [isNumericKey, numRank]

theorem sortKey_text (J : Intrinsics) {v w : JSVal} (hv : isTextKey v = true)
    (hw : isTextKey w = true) :
    jsLt J (lowerIfString J (orEmpty v)) (lowerIfString J (orEmpty w))
      = strLt (textRank J v) (textRank J w) := by
  cases v <;> cases w <;>
    simp_all [isTextKey, orEmpty, lowerIfString, jsLt, textRank, J.toLowerCase_empty]

theorem keyLt_negtrans_numeric (J : Intrinsics) (k : Column) {a b c : Process}
    (ha : isNumericKey (a.get k) = true) (hb : isNumericKey (b.get k) = true)
    (hc : isNumericKey (c.get k) = true)
    (hba : jsLt J (sortKey J k b) (sortKey J k a) = false)
    (hcb : jsLt J (sortKey J k c) (sortKey J k b) = false) :
    jsLt J (sortKey J k c) (sortKey J k a) = false := by
  unfold sortKey at *
  rw [sortKey_numeric J hb ha] at hba
  rw [sortKey_numeric J hc hb] at hcb
  rw [sortKey_numeric J hc ha]
  exact JSNumber.lt_negtrans (numRank_ne_nan ha) (numRank_ne_nan hb) (numRank_ne_nan hc)
    hba hcb

theorem keyLt_negtrans_text (J : Intrinsics) (k : Column) {a b c : Process}
    (ha : isTextKey (a.get k) = true) (hb : isTextKey (b.get k) = true)
    (hc : isTextKey (c.get k) = true)
    (hba : jsLt J (sortKey J k b) (sortKey J k a) = false)
    (hcb : jsLt J (sortKey J k c) (sortKey J k b) = false) :
    jsLt J (sortKey J k c) (sortKey J k a) = false := by
  unfold sortKey at *
  rw [sortKey_text J hb ha] at hba
  rw [sortKey_text J hc hb] at hcb
  rw [sortKey_text J hc ha]
  exact strLt_negtrans hba hcb

theorem compareFn_le_asc (J : Intrinsics) {cfg : SortConfig} (hd : cfg.direction = .asc)
    (a b : Process) :
    compareFn J cfg a b ≤ 0 ↔ jsGt J (sortKey J cfg.key a) (sortKey J cfg.key b) = false := by
  have hasym := @jsLt_asymm J (sortKey J cfg.key a) (sortKey J cfg.key b)
  rcases Bool.eq_false_or_eq_true (jsLt J (sortKey J cfg.key a) (sortKey J cfg.key b))
      with hlt | hlt <;>
    rcases Bool.eq_false_or_eq_true (jsLt J (sortKey J cfg.key b) (sortKey J cfg.key a))
      with hgt | hgt <;>
    simp_all [compareFn, jsGt]

theorem compareFn_le_desc (J : Intrinsics) {cfg : SortConfig} (hd : cfg.direction = .desc)
    (a b : Process) :
    compareFn J cfg a b ≤ 0 ↔ jsLt J (sortKey J cfg.key a) (sortKey J cfg.key b) = false := by
  rcases Bool.eq_false_or_eq_true (jsLt J (sortKey J cfg.key a) (sortKey J cfg.key b))
      with hlt | hlt <;>
    rcases Bool.eq_false_or_eq_true (jsLt J (sortKey J cfg.key b) (sortKey J cfg.key a))
      with hgt | hgt <;>
    simp_all [compareFn, jsGt]

theorem compareFn_eq_zero (J : Intrinsics) (cfg : SortConfig) (a b : Process) :
    compareFn J cfg a b = 0 ↔
      jsLt J (sortKey J cfg.key a) (sortKey J cfg.key b) = false ∧
      jsGt J (sortKey J cfg.key a) (sortKey J cfg.key b) = false := by
  rcases Bool.eq_false_or_eq_true (jsLt J (sortKey J cfg.key a) (sortKey J cfg.key b))
      with hlt | hlt <;>
    rcases Bool.eq_false_or_eq_true (jsLt J (sortKey J cfg.key b) (sortKey J cfg.key a))
      with hgt | hgt <;>
    cases hd : cfg.direction <;> simp_all [compareFn, jsGt]

theorem compareFn_antisymm (J : Intrinsics) (cfg : SortConfig) (a b : Process) :
    compareFn J cfg a b < 0 ↔ 0 < compareFn J cfg b a := by
  have h1 := @jsLt_asymm J (sortKey J cfg.key a) (sortKey J cfg.key b)
  have h2 := @jsLt_asymm J (sortKey J cfg.key b) (sortKey J cfg.key a)
  rcases Bool.eq_false_or_eq_true (jsLt J (sortKey J cfg.key a) (sortKey J cfg.key b))
      with hlt | hlt <;>
    rcases Bool.eq_false_or_eq_true (jsLt J (sortKey J cfg.key b) (sortKey J cfg.key a))
      with hgt | hgt <;>
    cases hd : cfg.direction <;> simp_all [compareFn, jsGt]

/-! ## `sortedProcesses` and `filteredProcesses` -/

theorem map_val_pmap (Q : α → Prop) (l : List α) (hl : ∀ x ∈ l, Q x) :
    (l.pmap Subtype.mk hl).map Subtype.val = l := by
  rw [List.map_pmap]
  simp [List.pmap_eq_map]

theorem consistent_on (cmp : α → α → Int) (Q : α → Prop)
    (h1 : ∀ a b, cmp a b < 0 ↔ 0 < cmp b a)
    (h2 : ∀ a b c, Q a → Q b → Q c → cmp a b ≤ 0 → cmp b c ≤ 0 → cmp a c ≤ 0) :
    Consistent (fun a b : { x // Q x } => cmp a.1 b.1) :=
  ⟨fun a b => h1 a.1 b.1, fun a b c => h2 a.1 b.1 c.1 a.2 b.2 c.2⟩

theorem arraySort_sorted_on (cmp : α → α → Int) (Q : α → Prop)
    (h1 : ∀ a b, cmp a b < 0 ↔ 0 < cmp b a)
    (h2 : ∀ a b c, Q a → Q b → Q c → cmp a b ≤ 0 → cmp b c ≤ 0 → cmp a c ≤ 0)
    (l : List α) (hl : ∀ x ∈ l, Q x) :
    (arraySort cmp l).Pairwise (fun a b => cmp a b ≤ 0) := by
  have h := arraySort_sorted _ (consistent_on cmp Q h1 h2) (l.pmap Subtype.mk hl)
  have hm := arraySort_map (Subtype.val : { x // Q x } → α) cmp (l.pmap Subtype.mk hl)
  rw [map_val_pmap] at hm
  rw [hm, List.pairwise_map]
  exact h

theorem arraySort_stable_on (cmp : α → α → Int) (Q : α → Prop)
    (h1 : ∀ a b, cmp a b < 0 ↔ 0 < cmp b a)
    (h2 : ∀ a b c, Q a → Q b → Q c → cmp a b ≤ 0 → cmp b c ≤ 0 → cmp a c ≤ 0)
    (l : List α) (hl : ∀ x ∈ l, Q x) (p : α) (hp : Q p) :
    (arraySort cmp l).filter (fun q => decide (cmp p q = 0))
      = l.filter (fun q => decide (cmp p q = 0)) := by
  have h := arraySort_stable _ (consistent_on cmp Q h1 h2) ⟨p, hp⟩ (l.pmap Subtype.mk hl)
  have hm := arraySort_map (Subtype.val : { x // Q x } → α) cmp (l.pmap Subtype.mk hl)
  rw [map_val_pmap] at hm
  have h' := congrArg (List.map Subtype.val) h
  rw [hm, List.filter_map]
  conv_rhs => rw [← map_val_pmap Q l hl, List.filter_map]
  exact h'

theorem compareFn_trans_numeric (J : Intrinsics) (cfg : SortConfig) (a b c : Process)
    (ha : isNumericKey (a.get cfg.key) = true) (hb : isNumericKey (b.get cfg.key) = true)
    (hc : isNumericKey (c.get cfg.key) = true)
    (hab : compareFn J cfg a b ≤ 0) (hbc : compareFn J cfg b c ≤ 0) :
    compareFn J cfg a c ≤ 0 := by
  cases hd : cfg.direction
  · rw [compareFn_le_asc J hd] at hab hbc ⊢
    exact keyLt_negtrans_numeric J cfg.key ha hb hc hab hbc
  · rw [compareFn_le_desc J hd] at hab hbc ⊢
    exact keyLt_negtrans_numeric J cfg.key hc hb ha hbc hab

theorem compareFn_trans_text (J : Intrinsics) (cfg : SortConfig) (a b c : Process)
    (ha : isTextKey (a.get cfg.key) = true) (hb : isTextKey (b.get cfg.key) = true)
    (hc : isTextKey (c.get cfg.key) = true)
    (hab : compareFn J cfg a b ≤ 0) (hbc : compareFn J cfg b c ≤ 0) :
    compareFn J cfg a c ≤ 0 := by
  cases hd : cfg.direction
  · rw [compareFn_le_asc J hd] at hab hbc ⊢
    exact keyLt_negtrans_text J cfg.key ha hb hc hab hbc
  · rw [compareFn_le_desc J hd] at hab hbc ⊢
    exact keyLt_negtrans_text J cfg.key hc hb ha hbc hab

theorem homogeneous_cases {k : Column} {S : List Process} (h : homogeneous k S = true) :
    (∀ p ∈ S, isNumericKey (p.get k) = true) ∨ (∀ p ∈ S, isTextKey (p.get k) = true) := by
  simpa [homogeneous] using h

theorem isTextKey_toStr (f : Field JSString) : isTextKey f.toStr = true := by
  cases f <;> rfl

theorem isNumericKey_toNum (f : Field Int) : isNumericKey f.toNum = true := by
  cases f <;> rfl

theorem homogeneous_typed (k : Column) (S : List Process) (hk : k ≠ .Time) :
    homogeneous k S = true := by
  simp only [homogeneous, Bool.or_eq_true, List.all_eq_true]
  cases k
  case Time => exact absurd rfl hk
  case Id => exact Or.inl fun p _ => isNumericKey_toNum p.Id
  case User => exact Or.inr fun p _ => isTextKey_toStr p.User
  case Host => exact Or.inr fun p _ => isTextKey_toStr p.Host
  case Db => exact Or.inr fun p _ => isTextKey_toStr p.Db
  case Command => exact Or.inr fun p _ => isTextKey_toStr p.Command
  case State => exact Or.inr fun p _ => isTextKey_toStr p.State
  case Info => exact Or.inr fun p _ => isTextKey_toStr p.Info

theorem sortedProcesses_perm (J : Intrinsics) (S : List Process) (cfg : SortConfig) :
    (sortedProcesses J S cfg).Perm S :=
  arraySort_perm _ S

theorem sortedProcesses_sorted (J : Intrinsics) (S : List Process) (cfg : SortConfig)
    (h : homogeneous cfg.key S = true) :
    (sortedProcesses J S cfg).Pairwise (fun a b => compareFn J cfg a b ≤ 0) := by
  rcases homogeneous_cases h with hn | ht
  · exact arraySort_sorted_on _ (fun p => isNumericKey (p.get cfg.key) = true)
      (compareFn_antisymm J cfg)
      (fun a b c ha hb hc => compareFn_trans_numeric J cfg a b c ha hb hc) S hn
  · exact arraySort_sorted_on _ (fun p => isTextKey (p.get cfg.key) = true)
      (compareFn_antisymm J cfg)
      (fun a b c ha hb hc => compareFn_trans_text J cfg a b c ha hb hc) S ht

theorem sortedProcesses_stable (J : Intrinsics) (S : List Process) (cfg : SortConfig)
    (h : homogeneous cfg.key S = true) (p : Process) (hp : p ∈ S) :
    (sortedProcesses J S cfg).filter (fun q => decide (compareFn J cfg p q = 0))
      = S.filter (fun q => decide (compareFn J cfg p q = 0)) := by
  rcases homogeneous_cases h with hn | ht
  · exact arraySort_stable_on _ (fun p => isNumericKey (p.get cfg.key) = true)
      (compareFn_antisymm J cfg)
      (fun a b c ha hb hc => compareFn_trans_numeric J cfg a b c ha hb hc) S hn p (hn p hp)
  · exact arraySort_stable_on _ (fun p => isTextKey (p.get cfg.key) = true)
      (compareFn_antisymm J cfg)
      (fun a b c ha hb hc => compareFn_trans_text J cfg a b c ha hb hc) S ht p (ht p hp)

theorem startsWith_iff (s f : JSString) : startsWith s f = true ↔ f <+: s := by
  induction s generalizing f with
  | nil => cases f <;> simp [startsWith]
  | cons c s ih =>
    cases f with
    | nil => simp [startsWith]
    | cons d f =>
      simp only [startsWith, Bool.and_eq_true, beq_iff_eq, ih, List.cons_prefix_cons]
      exact and_congr_left fun _ => eq_comm

theorem includes_iff (s f : JSString) : includes s f = true ↔ f <:+: s := by
  induction s with
  | nil => cases f <;> simp [includes, startsWith]
  | cons c s ih =>
    rw [includes, Bool.or_eq_true, startsWith_iff, ih, List.infix_cons_iff]

theorem includes_empty (s : JSString) : includes s [] = true :=
  (includes_iff s []).2 List.nil_infix

theorem matchesSearch_empty (J : Intrinsics) (p : Process) : matchesSearch J [] p = true := by
  simp [matchesSearch, searchedFields, J.toLowerCase_empty, includes_empty]

/-- C3: for every `toLowerCase` of the engine, the view `filteredProcesses` is a permutation
of the entries of the snapshot that pass the search filter; an entry passes exactly when the
lower-cased search string occurs in the lower-cased text of one of `User`, `Db`, `Command`,
`State`, `Info` (an absent or `null` property read as the empty string); for the empty search
string the view is a permutation of the whole snapshot, of the same length. The filter keeps
this for whatever rearrangement of the snapshot a sort leaves. -/
theorem filteredProcesses_perm (J : Intrinsics) (S : List Process) (f : JSString)
    (C : SortConfig) :
    (filteredProcesses J S f C).Perm (S.filter (matchesSearch J f)) ∧
    (∀ p, matchesSearch J f p = true ↔
      ∃ v ∈ [p.User, p.Db, p.Command, p.State, p.Info],
        J.toLowerCase f <:+: J.toLowerCase (textOf v)) ∧
    (filteredProcesses J S [] C).Perm S ∧
    (filteredProcesses J S [] C).length = S.length ∧
    (∀ l : List Process, l.Perm S →
      (l.filter (matchesSearch J f)).Perm (S.filter (matchesSearch J f)) ∧
      (l.filter (matchesSearch J [])).Perm S) := by
  have hall : (filteredProcesses J S [] C).Perm S := by
    have h : (filteredProcesses J S [] C) = sortedProcesses J S C := by
      rw [filteredProcesses, List.filter_eq_self]
      exact fun p _ => matchesSearch_empty J p
    rw [h]
    exact sortedProcesses_perm J S C
  refine ⟨(sortedProcesses_perm J S C).filter _, fun p => ?_, hall, hall.length_eq,
    fun l hl => ⟨hl.filter _, ?_⟩⟩
  · simp only [matchesSearch, searchedFields, List.any_eq_true, includes_iff]
  · rw [List.filter_eq_self.2 fun p _ => matchesSearch_empty J p]
    exact hl

set_option exponentiation.threshold 4096 in
set_option maxRecDepth 100000 in
theorem filteredProcesses_perm_witness :
    (filteredProcesses ascii lockSnapshot (js "APP") { key := .Id, direction := .desc })
      = [Process.row 3 "app" "waiting for lock on t", Process.row 2 "app" "Waiting for lock"] ∧
    (filteredProcesses ascii lockSnapshot (js "APP") { key := .Id, direction := .desc }).Perm
      (lockSnapshot.filter (matchesSearch ascii (js "APP"))) :=
  ⟨by decide,
   (filteredProcesses_perm ascii lockSnapshot (js "APP") { key := .Id, direction := .desc }).1⟩

set_option exponentiation.threshold 4096 in
set_option maxRecDepth 100000 in
/-- C4, as stated, fails: in the snapshot whose `Time` values are the strings `100` and `9`
and the number 50, sorted by `Time` ascending, the view keeps the snapshot order, in which the
key `100` comes before the smaller key 50; and no arrangement of these three entries is in
order, since `100 < 9` as strings, `9 < 50` and `50 < 100` as numbers. -/
theorem filteredProcesses_not_ordered :
    filteredProcesses ascii cycleSnapshot [] { key := .Time, direction := .asc }
      = cycleSnapshot ∧
    ¬ (filteredProcesses ascii cycleSnapshot [] { key := .Time, direction := .asc }).Pairwise
      (fun p q => jsGt ascii (sortKey ascii .Time p) (sortKey ascii .Time q) = false) ∧
    ∀ l : List Process, l.Perm cycleSnapshot →
      ¬ l.Pairwise
        (fun p q => jsGt ascii (sortKey ascii .Time p) (sortKey ascii .Time q) = false) := by
  refine ⟨by decide, by decide, fun l hl hpw => ?_⟩
  match l, hl, hpw with
  | [], hl, _ => exact absurd hl.length_eq (by decide)
  | x :: t, hl, hpw =>
    rw [List.pairwise_cons] at hpw
    have hx : x ∈ cycleSnapshot := hl.subset (List.mem_cons_self _ _)
    have hmem : ∀ y ∈ cycleSnapshot, y ≠ x → y ∈ t := by
      intro y hy hne
      rcases List.mem_cons.1 (hl.symm.subset hy) with h | h
      · exact absurd h hne
      · exact h
    simp only [cycleSnapshot, List.mem_cons, List.mem_singleton, List.not_mem_nil,
      or_false] at hx
    rcases hx with rfl | rfl | rfl
    · have h3 := hpw.1 (Process.timed 3 (.num (JSNumber.ofInt 50)))
        (hmem _ (by decide) (by decide))
      revert h3
      decide
    · have h1 := hpw.1 (Process.timed 1 (.str (js "100"))) (hmem _ (by decide) (by decide))
      revert h1
      decide
    · have h2 := hpw.1 (Process.timed 2 (.str (js "9"))) (hmem _ (by decide) (by decide))
      revert h2
      decide

/-- C4, amended: when the sorted column is of one kind in the snapshot (every value a number
other than `NaN`, or every value a string, absent and `null` values allowed), as every column
other than `Time` is, the view is ordered by the sort key: with direction `asc` no entry has
a key greater than the key of a later entry, with direction `desc` no entry has a key less
than the key of a later entry (the key being `a[key] ?? ""`, lower-cased when a string). -/
theorem filteredProcesses_ordered (J : Intrinsics) (S : List Process) (f : JSString)
    (k : Column) :
    (k ≠ .Time → homogeneous k S = true) ∧
    (homogeneous k S = true →
      (filteredProcesses J S f { key := k, direction := .asc }).Pairwise
        (fun p q => jsGt J (sortKey J k p) (sortKey J k q) = false) ∧
      (filteredProcesses J S f { key := k, direction := .desc }).Pairwise
        (fun p q => jsLt J (sortKey J k p) (sortKey J k q) = false)) := by
  refine ⟨homogeneous_typed k S, fun h => ?_⟩
  constructor
  · refine ((sortedProcesses_sorted J S { key := k, direction := .asc } h).filter _).imp ?_
    intro p q hpq
    exact (compareFn_le_asc J rfl p q).1 hpq
  · refine ((sortedProcesses_sorted J S { key := k, direction := .desc } h).filter _).imp ?_
    intro p q hpq
    exact (compareFn_le_desc J rfl p q).1 hpq

set_option exponentiation.threshold 4096 in
set_option maxRecDepth 100000 in
theorem filteredProcesses_ordered_witness :
    (filteredProcesses ascii timedSnapshot [] { key := .Time, direction := .asc }).map
        (fun p => p.Id) = [.val 2, .val 4, .val 1, .val 3] ∧
    (filteredProcesses ascii timedSnapshot [] { key := .Time, direction := .asc }).Pairwise
      (fun p q => jsGt ascii (sortKey ascii .Time p) (sortKey ascii .Time q) = false) ∧
    (filteredProcesses ascii lockSnapshot [] { key := .User, direction := .desc }).Pairwise
      (fun p q => jsLt ascii (sortKey ascii .User p) (sortKey ascii .User q) = false) :=
  ⟨by decide,
   ((filteredProcesses_ordered ascii timedSnapshot [] .Time).2 (by decide)).1,
   ((filteredProcesses_ordered ascii lockSnapshot [] .User).2 (by decide)).2⟩

set_option exponentiation.threshold 4096 in
set_option maxRecDepth 100000 in
/-- C5, as stated, fails: in the snapshot whose `Time` values are 5, 3, the string `x` and 4,
sorted by `Time` ascending, the view is 3, 4, 5, `x` (as V8 sorts it: the run 5, 3 is
reversed, `x` is put in last and 4 between 3 and 5); the keys `x` and 4 compare equal (the
comparator returns 0) and `x` comes before 4 in the snapshot, but after it in the view. -/
theorem filteredProcesses_not_stable :
    (filteredProcesses ascii mixedSnapshot [] { key := .Time, direction := .asc }).map
        (fun p => p.Id) = [.val 2, .val 4, .val 1, .val 3] ∧
    compareFn ascii { key := .Time, direction := .asc } (Process.timed 3 (.str (js "x")))
      (Process.timed 4 (.num (JSNumber.ofInt 4))) = 0 ∧
    List.Sublist [Process.timed 3 (.str (js "x")), Process.timed 4 (.num (JSNumber.ofInt 4))]
      (mixedSnapshot.filter (matchesSearch ascii [])) ∧
    ¬ List.Sublist [Process.timed 3 (.str (js "x")), Process.timed 4 (.num (JSNumber.ofInt 4))]
      (filteredProcesses ascii mixedSnapshot [] { key := .Time, direction := .asc }) := by
  decide

theorem compareFn_self (J : Intrinsics) (C : SortConfig) (a : Process) :
    compareFn J C a a = 0 := by
  have h := compareFn_antisymm J C a a
  omega

/-- C5, amended: when the sorted column is of one kind in the snapshot (every value a number
other than `NaN`, or every value a string, absent and `null` values allowed), as every column
other than `Time` is, sorting is stable in both directions: for every entry `p` of the
snapshot, the entries of the view whose key compares equal to the key of `p` (the comparator
returns 0) are, in the same order, the entries of the snapshot that pass the filter and compare
equal to `p`; so two entries with equal keys that follow one another in the filtered snapshot
follow one another in the view. -/
theorem filteredProcesses_stable (J : Intrinsics) (S : List Process) (f : JSString)
    (C : SortConfig) :
    (C.key ≠ .Time → homogeneous C.key S = true) ∧
    (homogeneous C.key S = true →
      (∀ p ∈ S,
        (filteredProcesses J S f C).filter (fun q => decide (compareFn J C p q = 0))
          = (S.filter (matchesSearch J f)).filter
              (fun q => decide (compareFn J C p q = 0))) ∧
      ∀ a b, compareFn J C a b = 0 →
        List.Sublist [a, b] (S.filter (matchesSearch J f)) →
        List.Sublist [a, b] (filteredProcesses J S f C)) := by
  refine ⟨homogeneous_typed C.key S, fun h => ?_⟩
  have hcls : ∀ p ∈ S,
      (filteredProcesses J S f C).filter (fun q => decide (compareFn J C p q = 0))
        = (S.filter (matchesSearch J f)).filter
            (fun q => decide (compareFn J C p q = 0)) := by
    intro p hp
    rw [filteredProcesses, List.filter_filter, List.filter_filter]
    have h1 := congrArg (List.filter (matchesSearch J f)) (sortedProcesses_stable J S C h p hp)
    rw [List.filter_filter, List.filter_filter] at h1
    simpa [Bool.and_comm] using h1
  refine ⟨hcls, fun a b hab hsub => ?_⟩
  have ha : a ∈ S :=
    (List.mem_filter.1 (hsub.subset (List.mem_cons_self _ _))).1
  have h2 := hsub.filter (fun q => decide (compareFn J C a q = 0))
  rw [← hcls a ha] at h2
  have h3 : [a, b].filter (fun q => decide (compareFn J C a q = 0)) = [a, b] := by
    simp [compareFn_self, hab]
  rw [h3] at h2
  exact h2.trans (List.filter_sublist _)

set_option exponentiation.threshold 4096 in
set_option maxRecDepth 100000 in
theorem filteredProcesses_stable_witness :
    (filteredProcesses ascii timedSnapshot [] { key := .Time, direction := .desc }).map
        (fun p => p.Id) = [.val 1, .val 3, .val 4, .val 2] ∧
    List.Sublist
      [Process.timed 1 (.num (JSNumber.ofInt 5)), Process.timed 3 (.num (JSNumber.ofInt 5))]
      (filteredProcesses ascii timedSnapshot [] { key := .Time, direction := .desc }) :=
  ⟨by decide,
   ((filteredProcesses_stable ascii timedSnapshot [] { key := .Time, direction := .desc }).2
      (by decide)).2 _ _ (by decide) (by decide)⟩

/-! ## `handleSort`, `blockingQuery` -/

/-- C10: `handleSort` sets the key to the clicked column, and the direction to the opposite
of the current one when the column is the current key, to `asc` otherwise. -/
theorem handleSort_config (st : AppState) (k : Column) :
    (handleSort st k).sortConfig =
      { key := k,
        direction := if k = st.sortConfig.key then st.sortConfig.direction.opposite
                     else .asc } := by
  unfold handleSort
  by_cases hk : k = st.sortConfig.key
  · subst hk
    cases hd : st.sortConfig.direction <;> simp [hd, Direction.opposite]
  · have hk' : ¬ st.sortConfig.key = k := fun h => hk h.symm
    simp [hk, hk']

theorem waitsForLock_iff (J : Intrinsics) (p : Process) :
    waitsForLock J p = true ↔ LockWait J p := by
  unfold waitsForLock LockWait
  cases hs : p.State <;> simp [includes_iff]

theorem waitsForLock_eq_false_iff (J : Intrinsics) (p : Process) :
    waitsForLock J p = false ↔ ¬ LockWait J p := by
  rw [← waitsForLock_iff, Bool.not_eq_true]

/-- C9: for every `toLowerCase` of the engine, `blockingQuery` is `none` exactly when no
entry of the snapshot has a `State` whose lower-cased text contains `waiting for lock`, and
it is `p` exactly when `p` is the first such entry in snapshot order. -/
theorem blockingQuery_first (J : Intrinsics) (S : List Process) :
    (blockingQuery J S = none ↔ ∀ p ∈ S, ¬ LockWait J p) ∧
    (∀ p, blockingQuery J S = some p ↔
      LockWait J p ∧
        ∃ before after, S = before ++ p :: after ∧ ∀ q ∈ before, ¬ LockWait J q) := by
  constructor
  · simp [blockingQuery, waitsForLock_iff]
  · intro p
    simp [blockingQuery, List.find?_eq_some, waitsForLock_iff, waitsForLock_eq_false_iff]

theorem blockingQuery_first_witness :
    blockingQuery ascii lockSnapshot = some (Process.row 2 "app" "Waiting for lock") ∧
    LockWait ascii (Process.row 2 "app" "Waiting for lock") ∧
    (∀ p ∈ [Process.row 1 "root" "executing"], ¬ LockWait ascii p) :=
  have h : blockingQuery ascii lockSnapshot
      = some (Process.row 2 "app" "Waiting for lock") := by
    decide
  ⟨h, (((blockingQuery_first ascii lockSnapshot).2 _).1 h).1, by
    intro p hp
    rw [List.mem_singleton] at hp
    subst hp
    rw [← waitsForLock_iff]
    decide⟩

/-! ## Selection and `killSelected` -/

/-- C6: checking the select-all box replaces the selection by the ids of the visible view,
whatever it was before; un-checking the row of a visible entry `p` afterwards leaves the
visible ids other than the id of `p`, in the same order, and when the ids of the snapshot
are distinct exactly one id has gone; the snapshot itself is untouched by both handlers. -/
theorem selectAll_then_toggle (J : Intrinsics) (st : AppState) (S : List Process)
    (hS : st.processes = .rows S) :
    (selectAllChange (filteredProcesses J S st.search st.sortConfig) true st).selectedProcesses
      = (filteredProcesses J S st.search st.sortConfig).map (fun p => p.Id) ∧
    ∀ p ∈ filteredProcesses J S st.search st.sortConfig,
      (toggleRow p
          (selectAllChange (filteredProcesses J S st.search st.sortConfig) true st)).selectedProcesses
        = ((filteredProcesses J S st.search st.sortConfig).map (fun q => q.Id)).filter
            (fun y => decide (y ≠ p.Id)) ∧
      ((S.map (fun q => q.Id)).Nodup →
        (toggleRow p
          (selectAllChange (filteredProcesses J S st.search st.sortConfig) true st)).selectedProcesses
          = ((filteredProcesses J S st.search st.sortConfig).map (fun q => q.Id)).erase p.Id) ∧
      (toggleRow p
          (selectAllChange (filteredProcesses J S st.search st.sortConfig) true st)).processes
        = .rows S := by
  refine ⟨rfl, fun p hp => ?_⟩
  have hmem : p.Id ∈ (filteredProcesses J S st.search st.sortConfig).map (fun q => q.Id) :=
    List.mem_map_of_mem _ hp
  have h1 : (toggleRow p
      (selectAllChange (filteredProcesses J S st.search st.sortConfig) true st)).selectedProcesses
      = ((filteredProcesses J S st.search st.sortConfig).map (fun q => q.Id)).filter
          (fun y => decide (y ≠ p.Id)) := by
    simp only [toggleRow, selectAllChange, if_true, if_pos hmem]
  refine ⟨h1, fun hnd => ?_, hS⟩
  rw [h1]
  have hsub : List.Sublist (filteredProcesses J S st.search st.sortConfig) (sortedProcesses J S st.sortConfig) :=
    List.filter_sublist _
  have hnd' : ((filteredProcesses J S st.search st.sortConfig).map (fun q => q.Id)).Nodup :=
    (((sortedProcesses_perm J S st.sortConfig).map (fun q => q.Id)).nodup_iff.2 hnd).sublist
      (hsub.map _)
  rw [hnd'.erase_eq_filter]
  apply List.filter_congr
  intro y _
  by_cases hy : y = p.Id <;> simp [hy]

theorem selectAll_then_toggle_witness :
    (selectAllChange (filteredProcesses ascii lockSnapshot lockState.search lockState.sortConfig)
        true lockState).selectedProcesses = [.val 2, .val 3] ∧
    (toggleRow (Process.row 2 "app" "Waiting for lock")
        (selectAllChange (filteredProcesses ascii lockSnapshot lockState.search lockState.sortConfig)
          true lockState)).selectedProcesses = [.val 3] :=
  have h := selectAll_then_toggle ascii lockState lockSnapshot rfl
  ⟨h.1.trans (by decide),
   ((h.2 (Process.row 2 "app" "Waiting for lock") (by decide)).2.1 (by decide)).trans
     (by decide)⟩

/-- C7: `killSelected` with an empty selection sends no request and leaves the state
unchanged; with a selection and a confirmed dialog, when the request resolves the new
selection holds none of the posted ids and `fetchProcesses` is called, and when the request
rejects the state (selection and snapshot included) is what it was before the call. -/
theorem killSelected_outcomes (st : AppState) (confirmed killed : Bool) :
    (st.selectedProcesses = [] →
      (killSelected st confirmed killed).1 = st ∧
      ∀ ids, Effect.postKill ids ∉ (killSelected st confirmed killed).2) ∧
    (st.selectedProcesses ≠ [] →
      Effect.postKill st.selectedProcesses ∈ (killSelected st true killed).2 ∧
      (∀ id ∈ st.selectedProcesses, id ∉ (killSelected st true true).1.selectedProcesses) ∧
      Effect.callFetchProcesses ∈ (killSelected st true true).2 ∧
      (killSelected st true false).1 = st ∧
      Effect.callFetchProcesses ∉ (killSelected st true false).2) := by
  constructor
  · intro h
    simp [killSelected, h]
  · intro h
    have hlen : ¬ st.selectedProcesses.length = 0 := by
      rwa [List.length_eq_zero]
    cases killed <;> simp [killSelected, fetchStart, hlen]

theorem killSelected_outcomes_witness :
    ((killSelected AppState.init true true).1 = AppState.init ∧
      ∀ ids, Effect.postKill ids ∉ (killSelected AppState.init true true).2) ∧
    (Effect.postKill [.val 1, .val 7] ∈ (killSelected lockState true true).2 ∧
      (∀ id ∈ lockState.selectedProcesses,
        id ∉ (killSelected lockState true true).1.selectedProcesses) ∧
      Effect.callFetchProcesses ∈ (killSelected lockState true true).2 ∧
      (killSelected lockState true false).1 = lockState ∧
      Effect.callFetchProcesses ∉ (killSelected lockState true false).2) :=
  ⟨(killSelected_outcomes AppState.init true true).1 rfl,
   (killSelected_outcomes lockState true true).2 (by decide)⟩

/-! ## Dashboard summaries -/

theorem mem_firstOccurrences [DecidableEq α] (a : α) (l : List α) :
    a ∈ firstOccurrences l ↔ a ∈ l := by
  induction l with
  | nil => simp [firstOccurrences]
  | cons b l ih =>
    simp only [firstOccurrences, List.mem_cons, List.mem_filter, ih, decide_eq_true_eq]
    by_cases h : a = b <;> simp [h]

theorem nodup_firstOccurrences [DecidableEq α] (l : List α) : (firstOccurrences l).Nodup := by
  induction l with
  | nil => simp [firstOccurrences]
  | cons b l ih =>
    simp only [firstOccurrences, List.nodup_cons, List.mem_filter, decide_eq_true_eq]
    exact ⟨fun h => h.2 rfl, ih.filter _⟩

theorem firstOccurrences_concat [DecidableEq α] (l : List α) (k : α) :
    firstOccurrences (l ++ [k])
      = if k ∈ l then firstOccurrences l else firstOccurrences l ++ [k] := by
  induction l with
  | nil => simp [firstOccurrences]
  | cons a l ih =>
    have e1 : firstOccurrences (a :: l ++ [k])
        = a :: (firstOccurrences (l ++ [k])).filter (fun b => b ≠ a) := rfl
    have e2 : firstOccurrences (a :: l) = a :: (firstOccurrences l).filter (fun b => b ≠ a) :=
      rfl
    rw [e1, e2, ih]
    by_cases hkl : k ∈ l
    · simp [hkl]
    · by_cases hka : k = a
      · subst hka
        simp [hkl, List.filter_append]
      · simp [hkl, hka, List.filter_append]

theorem lookup_map_self (f : JSString → PropVal) (l : List JSString) (k : JSString) :
    List.lookup k (l.map fun x => (x, f x)) = if k ∈ l then some (f k) else none := by
  induction l with
  | nil => simp
  | cons a l ih =>
    simp only [List.map_cons, List.lookup_cons, ih, List.mem_cons]
    by_cases h : k = a
    · subst h; simp
    · have : (k == a) = false := by simpa using h
      simp [this, h]

theorem countKeys_concat (ks : List JSString) (k : JSString) :
    countKeys (ks ++ [k])
      = (countKeys ks).write k (orZeroPlusOne ((countKeys ks).read k)) := by
  simp [countKeys, List.foldl_append]

theorem countKeys_eq_groupCounts (keys : List JSString)
    (hproto : ∀ k ∈ keys, k ∉ inheritedNames) : countKeys keys = groupCounts keys := by
  induction keys using List.reverseRecOn with
  | nil => rfl
  | append_singleton ks k ih =>
    have hk : k ∉ inheritedNames := hproto k (by simp)
    have hk' : k ≠ js "__proto__" := by
      intro h
      apply hk
      rw [h]
      decide
    rw [countKeys_concat, ih (fun x hx => hproto x (by simp [hx]))]
    have hlook := lookup_map_self (fun x => PropVal.count (ks.count x)) (firstOccurrences ks) k
    simp only [mem_firstOccurrences] at hlook
    unfold Obj.write Obj.read
    rw [if_neg hk']
    simp only [groupCounts] at hlook ⊢
    rw [hlook, firstOccurrences_concat]
    by_cases hmem : k ∈ ks
    · simp only [hmem, if_true, Option.isSome_some, orZeroPlusOne, List.map_map]
      apply List.map_congr_left
      intro x _
      by_cases hx : x = k
      · subst hx; simp
      · have hx' : ¬ k = x := fun h => hx h.symm
        simp [hx, hx', List.count_append]
    · simp only [hmem, if_false, Option.isSome_none, hk, orZeroPlusOne, List.map_append,
        List.map_cons, List.map_nil, Bool.false_eq_true]
      congr 1
      · apply List.map_congr_left
        intro x hx
        have hxk : ¬ k = x := by
          intro h
          subst h
          exact hmem ((mem_firstOccurrences _ _).1 hx)
        simp [List.count_append, List.count_cons, hxk]
      · simp [List.count_append, List.count_eq_zero_of_not_mem hmem]

theorem groupCounts_keys (keys : List JSString) :
    (groupCounts keys).map Prod.fst = firstOccurrences keys := by
  simp [groupCounts, Function.comp_def]

theorem ownKeyOrder_perm (ks : List JSString) : (ownKeyOrder ks).Perm ks := by
  unfold ownKeyOrder
  refine ((List.perm_insertionSort _ _).append_right _).trans ?_
  have h := List.filter_append_perm (fun k => (arrayIndex? k).isSome) ks
  refine List.Perm.trans ?_ h
  apply List.Perm.append_left
  apply List.Perm.of_eq
  apply List.filter_congr
  intro k _
  cases arrayIndex? k <;> rfl

theorem ownKeyOrder_of_no_index (ks : List JSString) (h : ∀ k ∈ ks, arrayIndex? k = none) :
    ownKeyOrder ks = ks := by
  unfold ownKeyOrder
  have h1 : ks.filter (fun k => (arrayIndex? k).isSome) = [] := by
    rw [List.filter_eq_nil_iff]
    intro k hk
    simp [h k hk]
  have h2 : ks.filter (fun k => (arrayIndex? k).isNone) = ks := by
    rw [List.filter_eq_self]
    intro k hk
    simp [h k hk]
  rw [h1, h2]
  rfl

theorem chartData_countKeys (keys : List JSString) (hproto : ∀ k ∈ keys, k ∉ inheritedNames) :
    chartData (countKeys keys)
      = (ownKeyOrder (firstOccurrences keys)).map fun k => (k, .count (keys.count k)) := by
  rw [countKeys_eq_groupCounts keys hproto, chartData, objectKeys, groupCounts_keys]
  apply List.map_congr_left
  intro k hk
  have hk' : k ∈ keys :=
    (mem_firstOccurrences k keys).1 ((ownKeyOrder_perm _).subset hk)
  have hlook := lookup_map_self (fun x => PropVal.count (keys.count x)) (firstOccurrences keys) k
  simp only [mem_firstOccurrences, hk', if_true] at hlook
  simp only [Obj.read, groupCounts, hlook]

theorem chartData_countKeys_perm (keys : List JSString)
    (hproto : ∀ k ∈ keys, k ∉ inheritedNames) :
    (chartData (countKeys keys)).Perm (groupCounts keys) := by
  rw [chartData_countKeys keys hproto]
  exact (ownKeyOrder_perm _).map _

theorem beq_decide (x k : JSString) : (x == k) = decide (x = k) := by
  rw [Bool.eq_iff_iff]
  simp

theorem groupCounts_sum (keys : List JSString) :
    ((groupCounts keys).map fun kv => countOf kv.2).sum = keys.length := by
  have hperm : (firstOccurrences keys).Perm keys.dedup := by
    rw [List.perm_ext_iff_of_nodup (nodup_firstOccurrences keys) (List.nodup_dedup keys)]
    intro a
    rw [mem_firstOccurrences, List.mem_dedup]
  have hc : ∀ x : JSString, keys.count x = keys.countP (fun y => decide (y = x)) := by
    intro x
    rw [List.count_eq_countP]
    congr 1
    funext y
    exact beq_decide y x
  have h := List.sum_map_count_dedup_eq_length keys
  have h2 := (hperm.map (fun x => keys.countP (fun y => decide (y = x)))).sum_eq
  simp only [groupCounts, List.map_map, Function.comp_def, countOf, hc]
  rw [h2, ← h]
  congr 2

theorem chartData_countKeys_sum (keys : List JSString)
    (hproto : ∀ k ∈ keys, k ∉ inheritedNames) :
    ((chartData (countKeys keys)).map fun kv => countOf kv.2).sum = keys.length := by
  rw [((chartData_countKeys_perm keys hproto).map (fun kv => countOf kv.2)).sum_eq]
  exact groupCounts_sum keys

/-- C8, as stated, fails: for users `b` then `1` the per-user summary lists `1` first, which
is not the order of first occurrence. -/
theorem userData_index_key_first :
    userData digitUserSnapshot = [(js "1", .count 1), (js "b", .count 1)] ∧
    groupCounts (userKeys digitUserSnapshot) = [(js "b", .count 1), (js "1", .count 1)] ∧
    userData digitUserSnapshot ≠ groupCounts (userKeys digitUserSnapshot) := by
  decide

/-- C8, amended: for a snapshot none of whose keys is a name inherited from
`Object.prototype`, the per-user and per-command summaries list every distinct key once with
the number of entries that have the key, the array-index keys first in ascending numeric order
and the other keys after them in the order of first occurrence; so the summary is a
permutation of the first-occurrence summary, equal to it when no key is an array index, and
its counts sum to the length of the snapshot. -/
theorem summaries_grouped (S : List Process)
    (hU : ∀ k ∈ userKeys S, k ∉ inheritedNames)
    (hC : ∀ k ∈ commandKeys S, k ∉ inheritedNames) :
    (userData S = (ownKeyOrder (firstOccurrences (userKeys S))).map
        (fun k => (k, .count ((userKeys S).count k))) ∧
      (userData S).Perm (groupCounts (userKeys S)) ∧
      ((∀ k ∈ userKeys S, arrayIndex? k = none) → userData S = groupCounts (userKeys S)) ∧
      ((userData S).map fun kv => countOf kv.2).sum = S.length) ∧
    (commandData S = (ownKeyOrder (firstOccurrences (commandKeys S))).map
        (fun k => (k, .count ((commandKeys S).count k))) ∧
      (commandData S).Perm (groupCounts (commandKeys S)) ∧
      ((∀ k ∈ commandKeys S, arrayIndex? k = none) →
        commandData S = groupCounts (commandKeys S)) ∧
      ((commandData S).map fun kv => countOf kv.2).sum = S.length) := by
  have key : ∀ keys : List JSString, (∀ k ∈ keys, k ∉ inheritedNames) →
      chartData (countKeys keys) = (ownKeyOrder (firstOccurrences keys)).map
          (fun k => (k, .count (keys.count k))) ∧
      (chartData (countKeys keys)).Perm (groupCounts keys) ∧
      ((∀ k ∈ keys, arrayIndex? k = none) → chartData (countKeys keys) = groupCounts keys) ∧
      ((chartData (countKeys keys)).map fun kv => countOf kv.2).sum = keys.length := by
    intro keys hproto
    refine ⟨chartData_countKeys keys hproto, chartData_countKeys_perm keys hproto, ?_,
      chartData_countKeys_sum keys hproto⟩
    intro hidx
    rw [chartData_countKeys keys hproto, ownKeyOrder_of_no_index]
    · rfl
    · intro k hk
      exact hidx k ((mem_firstOccurrences k keys).1 hk)
  have hu := key (userKeys S) hU
  have hc := key (commandKeys S) hC
  have hlu : (userKeys S).length = S.length := by simp [userKeys]
  have hlc : (commandKeys S).length = S.length := by simp [commandKeys]
  rw [hlu] at hu
  rw [hlc] at hc
  exact ⟨hu, hc⟩

theorem summaries_grouped_witness :
    userData exampleSnapshot = [(js "a", .count 1), (js "b", .count 1)] ∧
    commandData exampleSnapshot = [(js "undefined", .count 2)] ∧
    userData digitUserSnapshot
      = (ownKeyOrder [js "b", js "1"]).map
          (fun k => (k, .count ((userKeys digitUserSnapshot).count k))) :=
  have h := summaries_grouped exampleSnapshot (by decide) (by decide)
  ⟨(h.1.2.2.1 (by decide)).trans (by decide), (h.2.2.2.1 (by decide)).trans (by decide),
   (summaries_grouped digitUserSnapshot (by decide) (by decide)).1.1⟩

/-! ## Malformed payloads and late responses -/

/-- C11, as stated, fails: on a response whose body is not an array, `fetchProcesses` run
from a state showing `lockSnapshot` replaces the snapshot by the body although no sample is
recorded. -/
theorem fetchProcesses_notArray_not_atomic :
    (fetchProcesses lockState (js "12:00:00") (.resolved .notArray)).processes = .notArray ∧
    (fetchProcesses lockState (js "12:00:00") (.resolved .notArray)).processes
      ≠ lockState.processes ∧
    (fetchProcesses lockState (js "12:00:00") (.resolved .notArray)).resourceHistory
      = lockState.resourceHistory := by
  decide

/-- C11, amended: a rejected request leaves the snapshot and the resource history unchanged;
a response whose body is not an array leaves the resource history unchanged and records no
sample, but the body replaces the snapshot. -/
theorem fetchProcesses_failure (st : AppState) (now : JSString) :
    ((fetchProcesses st now .rejected).processes = st.processes ∧
      (fetchProcesses st now .rejected).resourceHistory = st.resourceHistory) ∧
    ((fetchProcesses st now (.resolved .notArray)).resourceHistory = st.resourceHistory ∧
      (fetchProcesses st now (.resolved .notArray)).processes = .notArray) :=
  ⟨⟨rfl, rfl⟩, rfl, rfl⟩

/-! ## The poll scheduler -/

theorem run_concat (es : List Event) (e : Event) : run (es ++ [e]) = step (run es) e := by
  simp [run, List.foldl_append]

theorem fetchResolve_autoRefresh (st : AppState) (now : JSString) (res : Response) :
    (fetchResolve st now res).autoRefresh = st.autoRefresh := by
  cases res with
  | rejected => rfl
  | resolved data => cases data <;> rfl

theorem step_invariant (s : Scheduler) (e : Event)
    (hi : s.interval = (s.mounted && s.app.autoRefresh))
    (hp : s.mounted = true → ∃ ps, s.app.processes = .rows ps) :
    (step s e).interval = ((step s e).mounted && (step s e).app.autoRefresh) ∧
    ((step s e).mounted = true → ∃ ps, (step s e).app.processes = .rows ps) := by
  cases e with
  | clickRefresh =>
    simp only [step]
    split
    · rename_i hc
      simp only [Bool.and_eq_true] at hc
      refine ⟨by simp [runEffect, callFetchProcesses, fetchStart, hc.1], fun _ => ?_⟩
      exact hp hc.1
    · exact ⟨hi, hp⟩
  | tick =>
    simp only [step]
    split
    · exact ⟨hi, hp⟩
    · exact ⟨hi, hp⟩
  | response id now res =>
    simp only [step]
    split
    · split
      · rename_i ps hps
        exact ⟨by simp only [fetchResolve_autoRefresh]; exact hi, fun _ => ⟨ps, hps⟩⟩
      · exact ⟨by simp, fun h => by simp at h⟩
    · exact ⟨hi, hp⟩

theorem run_invariant (es : List Event) :
    (run es).interval = ((run es).mounted && (run es).app.autoRefresh) ∧
    ((run es).mounted = true → ∃ ps, (run es).app.processes = .rows ps) := by
  induction es using List.reverseRecOn with
  | nil => exact ⟨rfl, fun _ => ⟨[], rfl⟩⟩
  | append_singleton es e ih =>
    rw [run_concat]
    exact step_invariant _ e ih.1 ih.2

theorem step_response_rows (s : Scheduler) (r : Request) (hm : s.mounted = true)
    (hr : r ∈ s.pending) (now : JSString) (S : List Process) :
    (step s (.response r.id now (.resolved (.rows S)))).app
      = fetchResolve s.app now (.resolved (.rows S)) := by
  have hany : s.pending.any (fun q => q.id == r.id) = true :=
    List.any_eq_true.2 ⟨r, hr, by simp⟩
  simp [step, hany, hm, fetchResolve]

theorem step_response_rejected (s : Scheduler) (r : Request) (hm : s.mounted = true)
    (hp : ∃ ps, s.app.processes = .rows ps) (hr : r ∈ s.pending) (now : JSString) :
    (step s (.response r.id now .rejected)).app = fetchResolve s.app now .rejected := by
  have hany : s.pending.any (fun q => q.id == r.id) = true :=
    List.any_eq_true.2 ⟨r, hr, by simp⟩
  obtain ⟨ps, hps⟩ := hp
  simp [step, hany, hm, fetchResolve, hps]

set_option exponentiation.threshold 4096 in
set_option maxRecDepth 100000 in
/-- C12, as stated, fails: after the first response a tick sends a request; the scheduler is
then paused and resumed, and the new cycle installs `exampleSnapshot` and its sample. The
request of the tick is still in flight and superseded; when its response arrives with
`olderSnapshot` it replaces the snapshot and a further sample is appended. -/
theorem stale_response_applied :
    (run staleRun).mounted = true ∧
    ({ id := 1, toggles := 0, running := true } : Request) ∈ (run staleRun).pending ∧
    superseded (run staleRun) { id := 1, toggles := 0, running := true } = true ∧
    (run staleRun).app.processes = .rows exampleSnapshot ∧
    (run staleRun).app.resourceHistory
      = [{ name := js "12:00:00", cpu := JSNumber.ofInt 1, memory := JSNumber.ofInt 2 },
         { name := js "12:00:10", cpu := JSNumber.ofInt 30, memory := JSNumber.ofInt 20 }] ∧
    (step (run staleRun)
        (.response 1 (js "12:00:11") (.resolved (.rows olderSnapshot)))).app.processes
      = .rows olderSnapshot ∧
    (step (run staleRun)
        (.response 1 (js "12:00:11") (.resolved (.rows olderSnapshot)))).app.resourceHistory
      = [{ name := js "12:00:00", cpu := JSNumber.ofInt 1, memory := JSNumber.ofInt 2 },
         { name := js "12:00:10", cpu := JSNumber.ofInt 30, memory := JSNumber.ofInt 20 },
         { name := js "12:00:11", cpu := JSNumber.ofInt 7, memory := JSNumber.ofInt 3 }] ∧
    ¬ StaleResponsesDiscarded := by
  refine ⟨by decide, by decide, by decide, by decide, by decide, by decide, by decide,
    fun h => ?_⟩
  have h1 := (h staleRun { id := 1, toggles := 0, running := true } (js "12:00:11")
    (.resolved (.rows olderSnapshot)) (by decide) (by decide)).1
  revert h1
  decide

/-- C12, amended: in every run of the poll scheduler, while the component is mounted the
response of a pending request is applied when it arrives, whether or not the scheduler was
stopped and restarted since the request was sent: a response resolving with an array replaces
the snapshot and appends its sample to the resource history, a rejected one leaves both
unchanged. A click on the refresh button, a pause as well as a resume, toggles `autoRefresh`
and sends one request at once; the interval is live exactly while `autoRefresh` holds, and
while it does not a tick sends no request. Once a response with a body that is not an array
has unmounted the component, no event changes anything. -/
theorem responses_always_applied (es : List Event) :
    ((run es).mounted = true →
      (∀ r ∈ (run es).pending, ∀ (now : JSString) (S : List Process),
        (step (run es) (.response r.id now (.resolved (.rows S)))).app.processes = .rows S ∧
        (step (run es) (.response r.id now (.resolved (.rows S)))).app.resourceHistory
          = pushSample (run es).app.resourceHistory (sampleOf now S) ∧
        (step (run es) (.response r.id now .rejected)).app.processes
          = (run es).app.processes ∧
        (step (run es) (.response r.id now .rejected)).app.resourceHistory
          = (run es).app.resourceHistory) ∧
      (run es).interval = (run es).app.autoRefresh ∧
      ((run es).app.autoRefresh = false → step (run es) .tick = run es) ∧
      (loaderShown (run es).app = false →
        (step (run es) .clickRefresh).app.autoRefresh = !(run es).app.autoRefresh ∧
        (step (run es) .clickRefresh).interval = !(run es).app.autoRefresh ∧
        (step (run es) .clickRefresh).issued = (run es).issued + 1 ∧
        (step (run es) .clickRefresh).pending.length = (run es).pending.length + 1)) ∧
    ((run es).mounted = false → ∀ e, step (run es) e = run es) := by
  have hinv := run_invariant es
  constructor
  · intro hm
    have hi : (run es).interval = (run es).app.autoRefresh := by
      rw [hinv.1, hm, Bool.true_and]
    refine ⟨fun r hr now S => ⟨?_, ?_, ?_, ?_⟩, hi, fun hoff => ?_, fun hl => ?_⟩
    · rw [step_response_rows _ r hm hr]; rfl
    · rw [step_response_rows _ r hm hr]; rfl
    · rw [step_response_rejected _ r hm (hinv.2 hm) hr]; rfl
    · rw [step_response_rejected _ r hm (hinv.2 hm) hr]; rfl
    · have hi' : (run es).interval = false := by rw [hi, hoff]
      simp [step, hi']
    · simp [step, hm, hl, runEffect, callFetchProcesses, fetchStart]
  · intro hm e
    cases e <;> simp [step, hm]

set_option exponentiation.threshold 4096 in
set_option maxRecDepth 100000 in
theorem responses_always_applied_witness :
    (step (run staleRun)
        (.response 1 (js "12:00:11") (.resolved (.rows olderSnapshot)))).app.processes
      = .rows olderSnapshot ∧
    step (run [.response 0 (js "12:00:00") (.resolved (.rows firstSnapshot)), .clickRefresh])
        .tick
      = run [.response 0 (js "12:00:00") (.resolved (.rows firstSnapshot)), .clickRefresh] ∧
    (step (run staleRun) .clickRefresh).issued = (run staleRun).issued + 1 ∧
    step (run [.response 0 (js "12:00:00") (.resolved .notArray)]) .tick
      = run [.response 0 (js "12:00:00") (.resolved .notArray)] :=
  ⟨(((responses_always_applied staleRun).1 (by decide)).1
      { id := 1, toggles := 0, running := true } (by decide) (js "12:00:11") olderSnapshot).1,
   ((responses_always_applied
      [.response 0 (js "12:00:00") (.resolved (.rows firstSnapshot)), .clickRefresh]).1
      (by decide)).2.2.1 (by decide),
   (((responses_always_applied staleRun).1 (by decide)).2.2.2 (by decide)).2.2.1,
   (responses_always_applied [.response 0 (js "12:00:00") (.resolved .notArray)]).2
      (by decide) .tick⟩

end ProcessManager
